import Mathlib

/-!
# Verification of the goldentest golden-sequence test harness

Shallow embedding of the fixtured, generic-error-aware harness variant
(`internal/goldentest/golden.go` together with the `TestConfig[T, F]` step
runner in `internal/goldentest/step.go`).

Conventions of the embedding:
* File contents ("bytes" in Go) are modelled as `String`; a `nil` byte slice
  returned by a failed `os.ReadFile` is modelled as the empty string, which is
  what `bytes.Equal` and the loaders observe in Go as well.
* The filesystem is a partial map `FileSys` from paths to contents; directory
  listings are explicit `List DirEntry` arguments (Go's `os.ReadDir` result).
* `t.Fatalf` / `t.Errorf` / `t.Logf` calls are recorded as events in an output
  trace; `t.Fatalf` stops the surrounding function (modelled by the control
  flow of the embedding) but deferred teardown still runs, as in Go.
* `os.WriteFile` is modelled as always succeeding; its error branch only adds
  one more `t.Errorf` in Go and no claim depends on it.
-/

namespace GoldenTest

/-! ## Decimal digits and Go's `strconv.Atoi`

`natChars` renders a natural number the way `fmt.Sprintf("%d", …)` and
`strconv.Itoa` do (no leading zeros, most significant digit first); it is
given fuel so that it is structurally recursive and kernel-evaluable. -/

/-- The character for the decimal digit `n % 10`. -/
def digitChar (n : Nat) : Char := Char.ofNat ('0'.toNat + n % 10)

/-- Decimal-digit test, as `unicode.IsDigit` behaves on ASCII. -/
def isDigitCh (c : Char) : Bool := '0' ≤ c && c ≤ '9'

/-- Fuelled digit renderer; with fuel `> n` it renders all digits of `n`. -/
def natCharsAux : Nat → Nat → List Char → List Char
  | 0, _, acc => acc
  | fuel + 1, n, acc =>
    if n < 10 then digitChar n :: acc
    else natCharsAux fuel (n / 10) (digitChar n :: acc)

/-- Decimal digits of `n`, most significant first (`strconv.Itoa` for `Nat`). -/
def natChars (n : Nat) : List Char := natCharsAux (n + 1) n []

/-- `strconv.Itoa`-style rendering of a natural number as a `String`. -/
def natStr (n : Nat) : String := ⟨natChars n⟩

/-- Decimal rendering of an `Int`, as `fmt.Sprintf("%d", i)` produces. -/
def intChars (i : Int) : List Char :=
  (if i < 0 then ['-'] else []) ++ natChars i.natAbs

/-- `String` version of `intChars`. -/
def intStr (i : Int) : String := ⟨intChars i⟩

/-- Numeric value of a decimal digit character. -/
def digitVal (c : Char) : Nat := c.toNat - '0'.toNat

/-- Value of a digit run, most significant digit first. -/
def digitsVal (l : List Char) : Nat :=
  l.foldl (fun a c => a * 10 + digitVal c) 0

/-- Whether every character of `l` is a decimal digit. -/
def allDigits (l : List Char) : Bool := l.all isDigitCh

/-- A nonempty all-digit run parsed to its value, else `none`. -/
def parseDigitsOpt (l : List Char) : Option Nat :=
  if l.isEmpty then none
  else if allDigits l then some (digitsVal l) else none

/-- Go's `strconv.Atoi`: optional sign, then a nonempty digit run and nothing
else.  (Go's range error for out-of-`int64` inputs is not modelled; ordinals
in this harness are tiny.) -/
def goAtoi (s : String) : Option Int :=
  match s.toList with
  | [] => none
  | c :: rest =>
    if c = '-' then (parseDigitsOpt rest).map (fun n => -(n : Int))
    else if c = '+' then (parseDigitsOpt rest).map (fun n => (n : Int))
    else (parseDigitsOpt (c :: rest)).map (fun n => (n : Int))

/-! ## String suffix helpers (`strings.HasSuffix` / `TrimSuffix` / `HasPrefix`) -/

/-- Does `l` end with `suf`? -/
def endsWithL (l suf : List Char) : Bool :=
  decide (l.reverse.take suf.length = suf.reverse)

/-- `l` with a trailing `suf` removed (caller checks presence first). -/
def dropSuffixL (l suf : List Char) : List Char :=
  (l.reverse.drop suf.length).reverse

/-- `strings.HasSuffix`. -/
def goHasSuffix (s suf : String) : Bool := endsWithL s.toList suf.toList

/-- `strings.TrimSuffix`. -/
def goTrimSuffix (s suf : String) : String :=
  if goHasSuffix s suf then ⟨dropSuffixL s.toList suf.toList⟩ else s

/-- `strings.HasPrefix` (the test-case-name classifier's check). -/
def goHasPre (s p : String) : Bool :=
  decide (s.toList.take p.toList.length = p.toList)

/-! ## Filesystem model -/

/-- Readable files: path ↦ contents (`none` = `os.ReadFile` fails). -/
def FileSys : Type := String → Option String

/-- One `os.ReadDir` entry. -/
structure DirEntry where
  name : String
  isDir : Bool
deriving DecidableEq, Repr

/-- `filepath.Join` for the two-component joins the harness performs. -/
def joinPath (d f : String) : String := d ++ "/" ++ f

/-! ## Step files and harness configuration (`TestConfig[T, F]`) -/

/-- `StepFile`: one numbered step's path and contents (step.go). -/
structure StepFile where
  Step : Int
  FilePath : String
  Data : String
deriving DecidableEq, Repr

/-- The fields of `TestConfig[T, F]` that the step runner consults.  Callbacks
are modelled as pure functions of their Go arguments; `setUp`'s outcome does
not depend on `t`, so it is a plain `Except` value.  `errorPre` models the
`ErrorPrefix` field. -/
structure StepConfig (T F E : Type) where
  inputExt : String
  errorPre : String
  errorOutputExt : String
  successOutputExt : String
  setUp : Option (Except E F) := none
  tearDown : Option (F → Option E) := none
  stepTestFunc : F → StepFile → Except E T
  errorFunc : Option (E → String) := none
  loader : String → Except String T
  formatter : T → Except String String
  isEq : T → T → Bool

/-- Is `name` skipped by the loader (a `.out`-suffixed golden artifact)? -/
def isSkippedName {T F E : Type} (cfg : StepConfig T F E) (name : String) : Bool :=
  goHasSuffix name (".out" ++ cfg.successOutputExt) ||
  goHasSuffix name (".out" ++ cfg.errorOutputExt)

/-! ## The StepFile loader and validator (`validateAndLoadStepFiles`) -/

/-- The entry loop of `validateAndLoadStepFiles`: skip golden artifacts,
reject subdirectories and wrong extensions, parse and bound the ordinal, read
the file.  Go appends into a slice and aborts the whole call on the first
error; mapping `cons` over the recursive call models exactly that. -/
def collectStepFiles {T F E : Type} (cfg : StepConfig T F E) (fs : FileSys)
    (stepDir : String) : List DirEntry → Except String (List StepFile)
  | [] => .ok []
  | e :: rest =>
    if e.isDir then
      .error ("unexpected subdirectory " ++ e.name ++ " in step directory")
    else if isSkippedName cfg e.name then
      collectStepFiles cfg fs stepDir rest
    else if !goHasSuffix e.name (".in" ++ cfg.inputExt) then
      .error ("unexpected file " ++ e.name ++ " with wrong extension")
    else
      match goAtoi (goTrimSuffix e.name (".in" ++ cfg.inputExt)) with
      | none => .error ("invalid step filename " ++ e.name ++ ": must be a number")
      | some stepNum =>
        if stepNum ≤ 0 then
          .error ("invalid step number in filename " ++ e.name ++ ": must be positive")
        else
          match fs (joinPath stepDir e.name) with
          | none => .error ("failed to read step file " ++ e.name)
          | some data =>
            (collectStepFiles cfg fs stepDir rest).map
              (fun l => ⟨stepNum, joinPath stepDir e.name, data⟩ :: l)

/-- The density scan: ordinals must run `expected, expected+1, …`. -/
def checkDense : Int → List StepFile → Option String
  | _, [] => none
  | expected, sf :: rest =>
    if sf.Step ≠ expected then
      some ("step sequence is not dense: expected step " ++ intStr expected ++
            ", found step " ++ intStr sf.Step)
    else checkDense (expected + 1) rest

/-- `validateAndLoadStepFiles` (step.go, fixtured variant): collect, demand at
least one step file, sort by ordinal, scan for density.  Go's unstable
`sort.Slice` under `Step <` is modelled as an insertion sort under `Step ≤`;
whenever ordinals are distinct every sort agrees, and with duplicated
ordinals the density scan fails in every element order. -/
def validateAndLoadStepFiles {T F E : Type} (cfg : StepConfig T F E)
    (fs : FileSys) (stepDir : String) (entries : List DirEntry) :
    Except String (List StepFile) :=
  match collectStepFiles cfg fs stepDir entries with
  | .error e => .error e
  | .ok files =>
    if files.isEmpty then .error "no step files found in directory"
    else
      match checkDense 1 (List.insertionSort (fun a b => a.Step ≤ b.Step) files) with
      | some e => .error e
      | none => .ok (List.insertionSort (fun a b => a.Step ≤ b.Step) files)

/-- The consecutive `Int` run `k, k+1, …` of length `n`. -/
def intRange (k : Int) : Nat → List Int
  | 0 => []
  | n + 1 => k :: intRange (k + 1) n

/-! ## Directory shapes used to state loader properties -/

/-- A directory entry as the loader's hypotheses describe it: either the input
file for ordinal `i`, or a golden artifact (to be skipped by name suffix). -/
inductive EntrySpec where
  | inp (i : Nat)
  | gold (name : String)

/-- The on-disk name of the step-`i` input file: `{i}.in{inputExt}`. -/
def mkInputName {T F E : Type} (cfg : StepConfig T F E) (i : Nat) : String :=
  natStr i ++ (".in" ++ cfg.inputExt)

/-- Realize an `EntrySpec` as a `DirEntry` (all plain files). -/
def specEntry {T F E : Type} (cfg : StepConfig T F E) : EntrySpec → DirEntry
  | .inp i => ⟨mkInputName cfg i, false⟩
  | .gold name => ⟨name, false⟩

/-- The input ordinals of an entry list, in directory order. -/
def specOrdinals (ks : List EntrySpec) : List Nat :=
  ks.filterMap (fun k => match k with | .inp i => some i | .gold _ => none)

/-- Side conditions making an `EntrySpec` behave as described: golden
artifacts really carry a skipped suffix, and input files do not collide with
the skipped suffixes and are readable. -/
def entrySpecOk {T F E : Type} (cfg : StepConfig T F E) (fs : FileSys)
    (stepDir : String) : EntrySpec → Bool
  | .gold name => isSkippedName cfg name
  | .inp i =>
    !isSkippedName cfg (mkInputName cfg i) &&
    (fs (joinPath stepDir (mkInputName cfg i))).isSome

/-! ## Test events and the per-case trace

`TEvent` tags every `t.Errorf`/`t.Fatalf` the step runner can emit; the trace
records them in program order together with the file writes, log lines, and
callback invocation counts. -/

/-- One reported test failure (`t.Errorf` or `t.Fatalf`) of the step runner. -/
inductive TEvent where
  | fatalSetup
  | fatalValidate
  | errExpectedButNone
  | errTestFailed
  | errUnexpected
  | errOutputMismatch (file : String)
  | resultCountMismatch
  | loadFailed (file : String)
  | formatFailed (step : Int)
  | stepMismatch (step : Int)
  | teardownFailed
deriving DecidableEq, Repr

/-- Failures, log lines and golden-file writes of one comparison routine. -/
structure StepOut where
  failures : List TEvent := []
  logs : List String := []
  writes : List (String × String) := []
deriving DecidableEq, Repr

/-- Sequential composition of comparison outputs. -/
def StepOut.app (a b : StepOut) : StepOut :=
  ⟨a.failures ++ b.failures, a.logs ++ b.logs, a.writes ++ b.writes⟩

/-- `testErrorCaseStep` (step.go): read the expected error golden (a failed
read only logs and leaves the expected bytes empty), render the actual error
through `ErrorFunc`, compare byte-for-byte; on mismatch either rewrite the
golden (update mode) or report a failure (verify mode). -/
def testErrorCaseStep {E : Type} (fs : FileSys) (update : Bool)
    (stepDir errorFile : String) (testErr : E) (errorFunc : E → String) :
    StepOut :=
  let path := joinPath stepDir errorFile
  let read := fs path
  let logs := match read with
    | some _ => []
    | none => ["failed to read expected error output file"]
  let expectedError := read.getD ""
  let actualError := errorFunc testErr
  if expectedError ≠ actualError then
    if update then { logs := logs, writes := [(path, actualError)] }
    else { logs := logs, failures := [.errOutputMismatch errorFile] }
  else { logs := logs }

/-- The per-step loop of `testSuccessCaseSteps`: read the step's golden
(logging on a failed read), `Loader` the bytes, compare via `cmp.Diff`
(modelled by `cfg.isEq`, which bundles `cmpopts.EquateEmpty` and the caller's
`DiffOpts`); on mismatch rewrite in update mode (and continue) or report and
continue in verify mode.  A load or format error stops the loop, as Go's
`return` does. -/
def successLoop {T F E : Type} (cfg : StepConfig T F E) (fs : FileSys)
    (update : Bool) (stepDir : String) : List (StepFile × T) → StepOut
  | [] => {}
  | (sf, result) :: rest =>
    let outputFile := intStr sf.Step ++ (".out" ++ cfg.successOutputExt)
    let outputPath := joinPath stepDir outputFile
    let read := fs outputPath
    let logs : List String := match read with
      | some _ => []
      | none => ["failed to read expected output file " ++ outputFile]
    let expectedData := read.getD ""
    match cfg.loader expectedData with
    | .error _ => { logs := logs, failures := [.loadFailed outputFile] }
    | .ok expected =>
      if cfg.isEq expected result then
        StepOut.app { logs := logs } (successLoop cfg fs update stepDir rest)
      else if update then
        match cfg.formatter result with
        | .error _ => { logs := logs, failures := [.formatFailed sf.Step] }
        | .ok actualData =>
          StepOut.app { logs := logs, writes := [(outputPath, actualData)] }
            (successLoop cfg fs update stepDir rest)
      else
        StepOut.app { logs := logs, failures := [.stepMismatch sf.Step] }
          (successLoop cfg fs update stepDir rest)

/-- `testSuccessCaseSteps` (step.go): length guard, then the per-step loop. -/
def testSuccessCaseSteps {T F E : Type} (cfg : StepConfig T F E) (fs : FileSys)
    (update : Bool) (stepDir : String) (stepFiles : List StepFile)
    (results : List T) : StepOut :=
  if results.length ≠ stepFiles.length then { failures := [.resultCountMismatch] }
  else successLoop cfg fs update stepDir (stepFiles.zip results)

/-! ## The step executor and the per-TestCase runner -/

/-- The step loop of `runStepTests`: run `StepTestFunc` on each step file in
order; the first error is kept and the loop breaks.  Returns the ordinals the
step function was invoked on, the accumulated results, and the terminal
error, if any. -/
def execSteps {T F E : Type} (stepFn : F → StepFile → Except E T) (fx : F) :
    List StepFile → List Int × List T × Option E
  | [] => ([], [], none)
  | sf :: rest =>
    match stepFn fx sf with
    | .error e => ([sf.Step], [], some e)
    | .ok r =>
      let (iv, rs, te) := execSteps stepFn fx rest
      (sf.Step :: iv, r :: rs, te)

/-- Everything observable about one TestCase's execution. -/
structure CaseTrace where
  setupCalls : Nat := 0
  teardownCalls : Nat := 0
  invoked : List Int := []
  comparedErrorFile : Option String := none
  failures : List TEvent := []
  logs : List String := []
  writes : List (String × String) := []
deriving DecidableEq, Repr

/-- The fixture the steps see: `SetUp`'s value if configured and successful,
otherwise Go's zero value (`var fixture F`). -/
def caseFixture {T F E : Type} [Inhabited F] (cfg : StepConfig T F E) : F :=
  match cfg.setUp with
  | some (.ok fx) => fx
  | _ => default

/-- The body of one `t.Run` after fixture setup (step.go, fixtured variant):
validate the directory (a failure is `t.Fatalf`, ending the body), execute
the steps, then classify.  A failure-expected case (error handling configured
and the name carries the prefix) demands a terminal error and compares it
against the golden named after `len(stepFiles)`; otherwise all results are
compared step by step. -/
def stepCaseCore {T F E : Type} (cfg : StepConfig T F E) (fs : FileSys)
    (update : Bool) (dir caseName : String) (entries : List DirEntry)
    (fx : F) : CaseTrace :=
  let stepDir := joinPath dir caseName
  match validateAndLoadStepFiles cfg fs stepDir entries with
  | .error _ => { failures := [.fatalValidate] }
  | .ok stepFiles =>
    let (invoked, results, testErr) := execSteps cfg.stepTestFunc fx stepFiles
    match cfg.errorFunc with
    | some ef =>
      if goHasPre caseName cfg.errorPre then
        match testErr with
        | none => { invoked := invoked, failures := [.errExpectedButNone] }
        | some e =>
          let finalStepNum := stepFiles.length
          let errorFile := natStr finalStepNum ++ (".out" ++ cfg.errorOutputExt)
          let out := testErrorCaseStep fs update stepDir errorFile e ef
          { invoked := invoked, comparedErrorFile := some errorFile,
            failures := out.failures, logs := out.logs, writes := out.writes }
      else
        match testErr with
        | some _ => { invoked := invoked, failures := [.errUnexpected] }
        | none =>
          let out := testSuccessCaseSteps cfg fs update stepDir stepFiles results
          { invoked := invoked, failures := out.failures, logs := out.logs,
            writes := out.writes }
    | none =>
      match testErr with
      | some _ => { invoked := invoked, failures := [.errTestFailed] }
      | none =>
        let out := testSuccessCaseSteps cfg fs update stepDir stepFiles results
        { invoked := invoked, failures := out.failures, logs := out.logs,
          writes := out.writes }

/-- One TestCase of `runStepTests`: `SetUp` runs first (its `t.Fatalf` exits
before the teardown `defer` is registered, so teardown is skipped); otherwise
the deferred `TearDown` runs exactly once after the body — including after a
validation `t.Fatalf` — and a teardown error appends one more `t.Errorf`. -/
def runStepCase {T F E : Type} [Inhabited F] (cfg : StepConfig T F E)
    (fs : FileSys) (update : Bool) (dir caseName : String)
    (entries : List DirEntry) : CaseTrace :=
  match cfg.setUp with
  | some (.error _) => { setupCalls := 1, failures := [.fatalSetup] }
  | _ =>
    let setupCalls := if cfg.setUp.isSome then 1 else 0
    let fx : F := caseFixture cfg
    let core := stepCaseCore cfg fs update dir caseName entries fx
    match cfg.tearDown with
    | none => { core with setupCalls := setupCalls }
    | some td =>
      let tdEvents := match td fx with
        | none => []
        | some _ => [TEvent.teardownFailed]
      { core with setupCalls := setupCalls, teardownCalls := 1,
                  failures := core.failures ++ tdEvents }

/-! ## `RunTests` configuration validation (golden.go) -/

/-- Which `TestConfig` fields the caller populated, as `RunTests` inspects
them (function fields by nil-ness, string fields by emptiness). -/
structure HarnessFlags where
  oneShotSet : Bool
  stepSet : Bool
  errorFuncSet : Bool
  errorPre : String
  errorOutputExt : String
  formatterSet : Bool
  loaderSet : Bool
deriving DecidableEq, Repr

/-- Which runner `RunTests` dispatches to. -/
inductive RunMode where
  | oneShot
  | step
deriving DecidableEq, Repr

/-- The effective configuration after defaulting, plus the dispatch choice. -/
structure EffectiveSetup where
  mode : RunMode
  errorPre : String
  defaultFormatterUsed : Bool
  defaultLoaderUsed : Bool
deriving DecidableEq, Repr

/-- The validation-and-defaulting phase of `RunTests` (golden.go).  Every
`.error` is a `t.Fatal` raised before the dispatched runner's first
`os.ReadDir`, i.e. before any TestCase executes and before any file or
directory I/O. -/
def runTestsSetup (c : HarnessFlags) : Except String EffectiveSetup :=
  if c.oneShotSet && c.stepSet then
    .error "TestConfig has both TestOneShotFunc and StepTestFunc set"
  else if !c.oneShotSet && !c.stepSet then
    .error "TestConfig has neither TestOneShotFunc nor StepTestFunc set"
  else if (c.errorFuncSet && !(c.errorOutputExt != "")) ||
          (!c.errorFuncSet && (c.errorOutputExt != "")) then
    .error "ErrorFunc and ErrorOutputExt must both be set or both unset"
  else if (c.errorPre != "") && !c.errorFuncSet then
    .error "ErrorPrefix is set but ErrorFunc is not"
  else
    .ok { mode := if c.oneShotSet then .oneShot else .step,
          errorPre := if c.errorFuncSet && c.errorPre == "" then "error_"
                      else c.errorPre,
          defaultFormatterUsed := !c.formatterSet,
          defaultLoaderUsed := !c.loaderSet }

/-! ## The default Formatter/Loader codecs (golden.go)

`DefaultFormatter`/`DefaultLoader` switch on the result type: strings and
byte slices pass through, protobuf messages go through `prototext`
(multiline, two-space indent), everything else through `json.MarshalIndent`
with two-space indent.  The two library codecs are modelled as verified
renderers/parsers over explicit value grammars: `Jval` is the JSON-encodable
value universe (numbers as integers — Go renders integral values exactly;
strings escape `"`, `\`, and common control characters), and a protobuf
message is a flat list of scalar fields, as `prototext` lays them out. -/

mutual
inductive Jval where
  | jnull
  | jbool (b : Bool)
  | jint (i : Int)
  | jstr (s : String)
  | jarr (elems : Jlist)
  | jobj (fields : Jfields)
inductive Jlist where
  | nil
  | cons (hd : Jval) (tl : Jlist)
inductive Jfields where
  | fnil
  | fcons (key : String) (val : Jval) (tl : Jfields)
end

mutual
/-- Structural equality on JSON values; models `cmp.Diff … == ""` under
`cmpopts.EquateEmpty` (the model has a single empty container, so the
nil/empty identification is built in). -/
def jvalEq : Jval → Jval → Bool
  | .jnull, .jnull => true
  | .jbool a, .jbool b => a == b
  | .jint a, .jint b => a == b
  | .jstr a, .jstr b => a == b
  | .jarr a, .jarr b => jlistEq a b
  | .jobj a, .jobj b => jfieldsEq a b
  | _, _ => false
def jlistEq : Jlist → Jlist → Bool
  | .nil, .nil => true
  | .cons a as, .cons b bs => jvalEq a b && jlistEq as bs
  | _, _ => false
def jfieldsEq : Jfields → Jfields → Bool
  | .fnil, .fnil => true
  | .fcons k v t, .fcons k' v' t' => k == k' && jvalEq v v' && jfieldsEq t t'
  | _, _ => false
end

mutual
/-- Parser-fuel cost of a value (one unit per grammar node). -/
def jvalFuel : Jval → Nat
  | .jarr es => 1 + jlistFuel es
  | .jobj fs => 1 + jfieldsFuel fs
  | _ => 1
def jlistFuel : Jlist → Nat
  | .nil => 1
  | .cons e es => 1 + jvalFuel e + jlistFuel es
def jfieldsFuel : Jfields → Nat
  | .fnil => 1
  | .fcons _ v fs => 1 + jvalFuel v + jfieldsFuel fs
end

/-- `n` copies of the two-space indent unit of `MarshalIndent(v, "", "  ")`. -/
def spaces : Nat → List Char
  | 0 => []
  | n + 1 => ' ' :: ' ' :: spaces n

/-- JSON escaping of one character (the escapes both codecs invert). -/
def escChar (c : Char) : List Char :=
  if c = '"' then ['\\', '"']
  else if c = '\\' then ['\\', '\\']
  else if c = '\n' then ['\\', 'n']
  else if c = '\t' then ['\\', 't']
  else if c = '\r' then ['\\', 'r']
  else [c]

/-- A quoted, escaped string literal. -/
def qstr (s : String) : List Char :=
  '"' :: ((s.toList.map escChar).flatten ++ ['"'])

mutual
/-- `json.MarshalIndent(v, "", "  ")` at indentation depth `ind`. -/
def jRender : Nat → Jval → List Char
  | _, .jnull => ['n', 'u', 'l', 'l']
  | _, .jbool true => ['t', 'r', 'u', 'e']
  | _, .jbool false => ['f', 'a', 'l', 's', 'e']
  | _, .jint i => intChars i
  | _, .jstr s => qstr s
  | _, .jarr .nil => ['[', ']']
  | ind, .jarr (.cons e es) =>
    '[' :: '\n' :: (spaces (ind + 1) ++
      (jRenderItems ind e es ++ ('\n' :: (spaces ind ++ [']']))))
  | _, .jobj .fnil => ['{', '}']
  | ind, .jobj (.fcons k v fs) =>
    '{' :: '\n' :: (spaces (ind + 1) ++
      (jRenderFields ind k v fs ++ ('\n' :: (spaces ind ++ ['}']))))
termination_by _ v => sizeOf v
decreasing_by all_goals (simp_wf; try omega)
/-- Comma/newline/indent-separated array elements (no leading indent). -/
def jRenderItems : Nat → Jval → Jlist → List Char
  | ind, e, .nil => jRender (ind + 1) e
  | ind, e, .cons e2 es =>
    jRender (ind + 1) e ++
      (',' :: '\n' :: (spaces (ind + 1) ++ jRenderItems ind e2 es))
termination_by _ e es => sizeOf e + sizeOf es
decreasing_by all_goals (simp_wf; try omega)
/-- `"key": value` members, comma/newline/indent separated. -/
def jRenderFields : Nat → String → Jval → Jfields → List Char
  | ind, k, v, .fnil => qstr k ++ (':' :: ' ' :: jRender (ind + 1) v)
  | ind, k, v, .fcons k2 v2 fs =>
    (qstr k ++ (':' :: ' ' :: jRender (ind + 1) v)) ++
      (',' :: '\n' :: (spaces (ind + 1) ++ jRenderFields ind k2 v2 fs))
termination_by _ _ v fs => sizeOf v + sizeOf fs
decreasing_by all_goals (simp_wf; try omega)
end

/-- JSON whitespace. -/
def isWsCh (c : Char) : Bool := c = ' ' || c = '\n' || c = '\t' || c = '\r'

/-- Drop leading whitespace. -/
def skipWs : List Char → List Char
  | [] => []
  | c :: cs => if isWsCh c then skipWs cs else c :: cs

/-- Inverse of `escChar` on the escape letter. -/
def unesc (c : Char) : Option Char :=
  if c = '"' then some '"'
  else if c = '\\' then some '\\'
  else if c = 'n' then some '\n'
  else if c = 't' then some '\t'
  else if c = 'r' then some '\r'
  else none

/-- Parse a string body after the opening quote, unescaping as it goes. -/
def parseStrBody (acc : List Char) : List Char → Option (String × List Char)
  | [] => none
  | '"' :: rest => some (⟨acc.reverse⟩, rest)
  | '\\' :: e :: rest =>
    match unesc e with
    | some c => parseStrBody (c :: acc) rest
    | none => none
  | c :: rest => parseStrBody (c :: acc) rest

/-- Longest matching run of `p`-characters, and the remainder. -/
def spanP (p : Char → Bool) : List Char → List Char × List Char
  | [] => ([], [])
  | c :: cs =>
    if p c then
      let (d, r) := spanP p cs
      (c :: d, r)
    else ([], c :: cs)

/-- Parse a (possibly negative) decimal integer off the front of `l`. -/
def parseIntL (l : List Char) : Option (Int × List Char) :=
  match l with
  | '-' :: rest =>
    let (ds, r) := spanP isDigitCh rest
    if ds.isEmpty then none else some (-(digitsVal ds : Int), r)
  | _ =>
    let (ds, r) := spanP isDigitCh l
    if ds.isEmpty then none else some ((digitsVal ds : Int), r)

mutual
/-- Fuelled JSON parser (`json.Unmarshal` on the `Jval` grammar). -/
def jParse : Nat → List Char → Option (Jval × List Char)
  | 0, _ => none
  | fuel + 1, cs =>
    match skipWs cs with
    | 'n' :: 'u' :: 'l' :: 'l' :: r => some (.jnull, r)
    | 't' :: 'r' :: 'u' :: 'e' :: r => some (.jbool true, r)
    | 'f' :: 'a' :: 'l' :: 's' :: 'e' :: r => some (.jbool false, r)
    | '"' :: r => (parseStrBody [] r).map (fun p => (.jstr p.1, p.2))
    | '[' :: r =>
      match skipWs r with
      | ']' :: r' => some (.jarr .nil, r')
      | r' => (jParseItems fuel r').map (fun p => (.jarr p.1, p.2))
    | '{' :: r =>
      match skipWs r with
      | '}' :: r' => some (.jobj .fnil, r')
      | r' => (jParseFields fuel r').map (fun p => (.jobj p.1, p.2))
    | c :: r =>
      if c = '-' || isDigitCh c then
        (parseIntL (c :: r)).map (fun p => (.jint p.1, p.2))
      else none
    | [] => none
/-- One-or-more comma-separated array elements, consuming the closing `]`. -/
def jParseItems : Nat → List Char → Option (Jlist × List Char)
  | 0, _ => none
  | fuel + 1, cs =>
    match jParse fuel cs with
    | none => none
    | some (v, r) =>
      match skipWs r with
      | ',' :: r' => (jParseItems fuel r').map (fun p => (.cons v p.1, p.2))
      | ']' :: r' => some (.cons v .nil, r')
      | _ => none
/-- One-or-more `"key": value` members, consuming the closing brace. -/
def jParseFields : Nat → List Char → Option (Jfields × List Char)
  | 0, _ => none
  | fuel + 1, cs =>
    match skipWs cs with
    | '"' :: r =>
      match parseStrBody [] r with
      | none => none
      | some (k, r1) =>
        match skipWs r1 with
        | ':' :: r2 =>
          match jParse fuel r2 with
          | none => none
          | some (v, r3) =>
            match skipWs r3 with
            | ',' :: r4 => (jParseFields fuel r4).map (fun p => (.fcons k v p.1, p.2))
            | '}' :: r4 => some (.fcons k v .fnil, r4)
            | _ => none
        | _ => none
    | _ => none
end

/-- `json.MarshalIndent(v, "", "  ")`. -/
def jsonMarshalIndent (v : Jval) : String := ⟨jRender 0 v⟩

/-- `json.Unmarshal`: parse one value; trailing non-whitespace is an error. -/
def jsonUnmarshal (s : String) : Option Jval :=
  match jParse (s.toList.length + 1) s.toList with
  | some (v, r) => if (skipWs r).isEmpty then some v else none
  | none => none

/-! ## The prototext codec (flat scalar-field messages) -/

/-- A scalar protobuf field value. -/
inductive PVal where
  | pint (i : Int)
  | pstr (s : String)
deriving DecidableEq, Repr

/-- One protobuf field; a message is a `List ProtoField`. -/
structure ProtoField where
  name : String
  val : PVal
deriving DecidableEq, Repr

/-- Characters allowed in a protobuf field name. -/
def pIdentChar (c : Char) : Bool :=
  ('a' ≤ c && c ≤ 'z') || ('A' ≤ c && c ≤ 'Z') ||
  ('0' ≤ c && c ≤ '9') || c = '_'

/-- A syntactically valid field name: nonempty, identifier characters only
(an invariant of every generated protobuf message). -/
def pWfName (s : String) : Bool :=
  !s.toList.isEmpty && s.toList.all pIdentChar

/-- Render one scalar value as prototext does (strings quoted/escaped). -/
def pvalRender : PVal → List Char
  | .pint i => intChars i
  | .pstr s => qstr s

/-- `prototext.MarshalOptions{Multiline: true, Indent: "  "}.Marshal` on a
flat message: one `name: value` line per field. -/
def protoRender : List ProtoField → List Char
  | [] => []
  | f :: rest => f.name.toList ++ (':' :: ' ' :: (pvalRender f.val ++ '\n' :: protoRender rest))

/-- The marshalled prototext bytes. -/
def prototextMarshal (m : List ProtoField) : String := ⟨protoRender m⟩

/-- Fuelled prototext parser for flat scalar messages. -/
def protoParseF : Nat → List Char → Option (List ProtoField)
  | 0, _ => none
  | fuel + 1, cs =>
    match skipWs cs with
    | [] => some []
    | cs' =>
      let (id, r) := spanP pIdentChar cs'
      if id.isEmpty then none
      else
        match skipWs r with
        | ':' :: r2 =>
          match skipWs r2 with
          | '"' :: r3 =>
            match parseStrBody [] r3 with
            | none => none
            | some (s, r4) =>
              (protoParseF fuel r4).map (fun m => ⟨⟨id⟩, .pstr s⟩ :: m)
          | r3 =>
            match parseIntL r3 with
            | none => none
            | some (i, r4) =>
              (protoParseF fuel r4).map (fun m => ⟨⟨id⟩, .pint i⟩ :: m)
        | _ => none

/-- `prototext.Unmarshal` on the flat-message grammar. -/
def protoUnmarshal (s : String) : Option (List ProtoField) :=
  protoParseF (s.toList.length + 1) s.toList

/-! ## `DefaultFormatter` / `DefaultLoader` -/

/-- A Go result value, tagged by the runtime shape `DefaultFormatter`'s type
switch discriminates: `string`, `[]byte` (contents modelled as `String`),
`proto.Message`, or any other (JSON-encodable) value. -/
inductive GoVal where
  | gstr (s : String)
  | gbytes (b : String)
  | gproto (m : List ProtoField)
  | gjson (j : Jval)

/-- The four strategy tags of the default codecs. -/
inductive GoTy where
  | tstr
  | tbytes
  | tproto
  | tjson
deriving DecidableEq, Repr

/-- The strategy `DefaultFormatter`/`DefaultLoader` select for a value. -/
def goTypeOf : GoVal → GoTy
  | .gstr _ => .tstr
  | .gbytes _ => .tbytes
  | .gproto _ => .tproto
  | .gjson _ => .tjson

/-- `DefaultFormatter` (golden.go): string/bytes pass through, protobuf via
prototext, everything else via indented JSON.  (Go's marshal error paths
concern values outside this grammar — NaN floats, channels — and are not
representable here.) -/
def defaultFormatter : GoVal → String
  | .gstr s => s
  | .gbytes b => b
  | .gproto m => prototextMarshal m
  | .gjson j => jsonMarshalIndent j

/-- `DefaultLoader` (golden.go): the strategy is chosen by the result *type*
(the zero value's shape), not by the data. -/
def defaultLoader : GoTy → String → Except String GoVal
  | .tstr, data => .ok (.gstr data)
  | .tbytes, data => .ok (.gbytes data)
  | .tproto, data =>
    match protoUnmarshal data with
    | some m => .ok (.gproto m)
    | none => .error "prototext unmarshal failed"
  | .tjson, data =>
    match jsonUnmarshal data with
    | some j => .ok (.gjson j)
    | none => .error "json unmarshal failed"

/-- `cmp.Diff(x, y, cmpopts.EquateEmpty(), DiffOpts…) == ""` on loaded
values: structural equality (the model's containers have a unique empty, and
protobuf messages compare by field semantics as under `protocmp.Transform`). -/
def goCmpEqual : GoVal → GoVal → Bool
  | .gstr a, .gstr b => a == b
  | .gbytes a, .gbytes b => a == b
  | .gproto a, .gproto b => a == b
  | .gjson a, .gjson b => jvalEq a b
  | _, _ => false

/-- Structural well-formedness of a result value: protobuf field names are
valid identifiers (true of every generated message type). -/
def goWf : GoVal → Bool
  | .gproto m => m.all (fun f => pWfName f.name)
  | _ => true

/-! ## Concrete fixtures used by witness instantiations -/

/-- A small concrete step-test configuration (echoing step function, identity
codecs, identity error rendering). -/
def witCfg : StepConfig String Unit String :=
  { inputExt := ".hcl", errorPre := "error_", errorOutputExt := ".txt",
    successOutputExt := ".json",
    setUp := some (.ok ()), tearDown := some (fun _ => none),
    stepTestFunc := fun _ sf => .ok sf.Data,
    errorFunc := some (fun e => e),
    loader := fun d => .ok d, formatter := fun d => .ok d,
    isEq := fun a b => a == b }

/-- A filesystem holding two input step files for `testdata/case1`. -/
def witFs : FileSys := fun p =>
  if p = "testdata/case1/1.in.hcl" then some "one"
  else if p = "testdata/case1/2.in.hcl" then some "two"
  else none

/-- `witCfg` with a step function that fails on every step. -/
def witCfgFail : StepConfig String Unit String :=
  { witCfg with stepTestFunc := fun _ _ => .error "boom" }

/-- Three readable input step files for the failure-marked `error_case`. -/
def witFs3 : FileSys := fun p =>
  if p = "testdata/error_case/1.in.hcl" then some "one"
  else if p = "testdata/error_case/2.in.hcl" then some "two"
  else if p = "testdata/error_case/3.in.hcl" then some "three"
  else none

/-- The directory listing of `error_case`: steps 1, 2, 3. -/
def witEnts3 : List DirEntry :=
  [⟨"1.in.hcl", false⟩, ⟨"2.in.hcl", false⟩, ⟨"3.in.hcl", false⟩]

/-- An invalid flag combination: both test functions set. -/
def witFlagsBad : HarnessFlags := ⟨true, true, false, "", "", false, false⟩

/-- A valid step-mode flag combination with error handling configured. -/
def witFlagsOk : HarnessFlags := ⟨false, true, true, "", ".txt", false, false⟩

/-! ## Digit-rendering lemmas -/

theorem natCharsAux_acc (fuel : Nat) : ∀ (n : Nat) (acc : List Char),
    natCharsAux fuel n acc = natCharsAux fuel n [] ++ acc := by
  induction fuel with
  | zero => intro n acc; rfl
  | succ f ih =>
    intro n acc
    by_cases h : n < 10
    · simp [natCharsAux, h]
    · simp only [natCharsAux, if_neg h]
      rw [ih (n / 10) (digitChar n :: acc), ih (n / 10) [digitChar n]]
      simp

theorem natCharsAux_fuel (n : Nat) : ∀ f1 f2 : Nat, n < f1 → n < f2 →
    natCharsAux f1 n [] = natCharsAux f2 n [] := by
  induction n using Nat.strong_induction_on with
  | _ n ih =>
    intro f1 f2 h1 h2
    match f1, f2 with
    | g1 + 1, g2 + 1 =>
      by_cases h : n < 10
      · simp [natCharsAux, h]
      · simp only [natCharsAux, if_neg h]
        have hlt : n / 10 < n := Nat.div_lt_self (by omega) (by omega)
        rw [natCharsAux_acc g1, natCharsAux_acc g2,
            ih (n / 10) hlt g1 g2 (by omega) (by omega)]

/-- One unfold of `natChars`, with the least-significant digit split off. -/
theorem natChars_unfold (n : Nat) :
    natChars n = if n < 10 then [digitChar n]
                 else natChars (n / 10) ++ [digitChar n] := by
  by_cases h : n < 10
  · simp [natChars, natCharsAux, h]
  · have step : natChars n = natCharsAux n (n / 10) [digitChar n] := by
      simp only [natChars, natCharsAux, if_neg h]
    rw [if_neg h, step, natCharsAux_acc n,
        natCharsAux_fuel (n / 10) n (n / 10 + 1) (by omega) (by omega)]
    rfl

theorem natChars_ne_nil (n : Nat) : natChars n ≠ [] := by
  rw [natChars_unfold]
  by_cases h : n < 10 <;> simp [h]

theorem isDigitCh_digitChar (n : Nat) :
    isDigitCh (digitChar n) = true ∧ digitVal (digitChar n) = n % 10 := by
  have h : n % 10 < 10 := Nat.mod_lt _ (by omega)
  unfold digitChar digitVal
  interval_cases h10 : (n % 10) <;> exact ⟨by decide, by decide⟩

theorem allDigits_natChars (n : Nat) : allDigits (natChars n) = true := by
  induction n using Nat.strong_induction_on with
  | _ n ih =>
    rw [natChars_unfold]
    by_cases h : n < 10
    · simp [h, allDigits, (isDigitCh_digitChar n).1]
    · have hlt : n / 10 < n := Nat.div_lt_self (by omega) (by omega)
      have hih := ih (n / 10) hlt
      rw [if_neg h]
      simp only [allDigits, List.all_append, List.all_cons, List.all_nil] at hih ⊢
      simp [hih, (isDigitCh_digitChar n).1]

theorem digitsVal_append_one (l : List Char) (c : Char) :
    digitsVal (l ++ [c]) = digitsVal l * 10 + digitVal c := by
  simp [digitsVal, List.foldl_append]

theorem digitsVal_natChars (n : Nat) : digitsVal (natChars n) = n := by
  induction n using Nat.strong_induction_on with
  | _ n ih =>
    rw [natChars_unfold]
    by_cases h : n < 10
    · simp only [if_pos h]
      have := (isDigitCh_digitChar n).2
      simp [digitsVal, this]
      omega
    · have hlt : n / 10 < n := Nat.div_lt_self (by omega) (by omega)
      simp only [if_neg h]
      rw [digitsVal_append_one, ih (n / 10) hlt, (isDigitCh_digitChar n).2]
      omega

theorem parseDigitsOpt_natChars (n : Nat) : parseDigitsOpt (natChars n) = some n := by
  simp [parseDigitsOpt, natChars_ne_nil, allDigits_natChars, digitsVal_natChars,
        List.isEmpty_iff]

theorem digit_ne_sign {c : Char} (h : isDigitCh c = true) : c ≠ '-' ∧ c ≠ '+' := by
  refine ⟨?_, ?_⟩ <;> rintro rfl <;> revert h <;> decide

theorem goAtoi_natStr (n : Nat) : goAtoi (natStr n) = some (n : Int) := by
  match hnc : natChars n with
  | [] => exact absurd hnc (natChars_ne_nil n)
  | c :: t =>
    have hdig : isDigitCh c = true := by
      have := allDigits_natChars n
      rw [hnc] at this
      simp [allDigits] at this
      exact this.1
    obtain ⟨hm, hp⟩ := digit_ne_sign hdig
    have hparse := parseDigitsOpt_natChars n
    rw [hnc] at hparse
    have hdata : (natStr n).data = c :: t := hnc
    simp [goAtoi, String.toList, hdata, hm, hp, hparse]

/-! ## Suffix-helper lemmas -/

theorem endsWithL_append (a b : List Char) : endsWithL (a ++ b) b = true := by
  have h : (a ++ b).reverse.take b.length = b.reverse := by
    rw [List.reverse_append, ← List.length_reverse b, List.take_left]
  simp [endsWithL, h]

theorem dropSuffixL_append (a b : List Char) : dropSuffixL (a ++ b) b = a := by
  unfold dropSuffixL
  rw [List.reverse_append, ← List.length_reverse b, List.drop_left,
      List.reverse_reverse]

theorem toList_append (s t : String) : (s ++ t).toList = s.toList ++ t.toList :=
  String.data_append s t

theorem goHasSuffix_append (s t : String) : goHasSuffix (s ++ t) t = true := by
  rw [goHasSuffix, toList_append]
  exact endsWithL_append _ _

theorem goTrimSuffix_append (s t : String) : goTrimSuffix (s ++ t) t = s := by
  rw [goTrimSuffix, if_pos (goHasSuffix_append s t)]
  show (⟨dropSuffixL (s.toList ++ t.toList) t.toList⟩ : String) = s
  rw [dropSuffixL_append]
  rfl

/-! ## Loader/validator lemmas -/

instance : IsTotal StepFile (fun a b => a.Step ≤ b.Step) :=
  ⟨fun a b => Int.le_total a.Step b.Step⟩

instance : IsTrans StepFile (fun a b => a.Step ≤ b.Step) :=
  ⟨fun _ _ _ hab hbc => le_trans hab hbc⟩

theorem intRange_length (k : Int) : ∀ n : Nat, (intRange k n).length = n := by
  intro n
  induction n generalizing k with
  | zero => rfl
  | succ m ih => simp [intRange, ih]

theorem mem_intRange {x k : Int} : ∀ {n : Nat}, x ∈ intRange k n → k ≤ x := by
  intro n
  induction n generalizing k with
  | zero => intro h; simp [intRange] at h
  | succ m ih =>
    intro h
    rcases List.mem_cons.mp h with h | h
    · omega
    · have := ih h; omega

theorem intRange_sorted (k : Int) : ∀ n : Nat, List.Sorted (· ≤ ·) (intRange k n) := by
  intro n
  induction n generalizing k with
  | zero => simp [intRange]
  | succ m ih =>
    simp only [intRange, List.sorted_cons]
    exact ⟨fun b hb => by have := mem_intRange hb; omega, ih (k + 1)⟩

theorem range'_map_cast : ∀ (n k : Nat),
    (List.range' k n).map Int.ofNat = intRange (Int.ofNat k) n := by
  intro n
  induction n with
  | zero => intro k; rfl
  | succ m ih =>
    intro k
    rw [List.range'_succ, List.map_cons, ih (k + 1)]
    show _ = Int.ofNat k :: intRange (Int.ofNat k + 1) m
    have hcast : Int.ofNat (k + 1) = Int.ofNat k + 1 := by simp
    rw [hcast]

theorem checkDense_of_map : ∀ (l : List StepFile) (k : Int),
    l.map (·.Step) = intRange k l.length → checkDense k l = none := by
  intro l
  induction l with
  | nil => intro k _; rfl
  | cons sf rest ih =>
    intro k h
    simp only [List.map_cons, List.length_cons, intRange, List.cons.injEq] at h
    simp [checkDense, h.1, ih (k + 1) h.2]

theorem map_of_checkDense : ∀ (l : List StepFile) (k : Int),
    checkDense k l = none → l.map (·.Step) = intRange k l.length := by
  intro l
  induction l with
  | nil => intro k _; rfl
  | cons sf rest ih =>
    intro k h
    by_cases hs : sf.Step = k
    · have h' : checkDense (k + 1) rest = none := by
        simpa [checkDense, hs] using h
      simp [List.map_cons, intRange, hs, ih (k + 1) h']
    · exfalso
      simp [checkDense, hs] at h

theorem collect_spec {T F E : Type} (cfg : StepConfig T F E) (fs : FileSys)
    (stepDir : String) : ∀ ks : List EntrySpec,
    (∀ k ∈ ks, entrySpecOk cfg fs stepDir k = true) →
    (∀ i, EntrySpec.inp i ∈ ks → 1 ≤ i) →
    ∃ files, collectStepFiles cfg fs stepDir (ks.map (specEntry cfg)) = .ok files ∧
      files.map (·.Step) = (specOrdinals ks).map Int.ofNat := by
  intro ks
  induction ks with
  | nil => intro _ _; exact ⟨[], rfl, rfl⟩
  | cons k rest ih =>
    intro hok hpos
    obtain ⟨files, hcol, hmap⟩ :=
      ih (fun k' hk' => hok k' (List.mem_cons_of_mem _ hk'))
         (fun i hi => hpos i (List.mem_cons_of_mem _ hi))
    match k with
    | .gold name =>
      have hskip : isSkippedName cfg name = true := by
        have := hok _ (List.mem_cons_self _ _)
        simpa [entrySpecOk] using this
      refine ⟨files, ?_, ?_⟩
      · simp [List.map_cons, specEntry, collectStepFiles, hskip, hcol]
      · simpa [specOrdinals, List.filterMap_cons] using hmap
    | .inp i =>
      have hk := hok _ (List.mem_cons_self _ _)
      simp only [entrySpecOk, Bool.and_eq_true, Bool.not_eq_true'] at hk
      obtain ⟨hnoskip, hread⟩ := hk
      obtain ⟨data, hdata⟩ := Option.isSome_iff_exists.mp hread
      have hpos1 : 1 ≤ i := hpos i (List.mem_cons_self _ _)
      have hsuf : goHasSuffix (mkInputName cfg i) (".in" ++ cfg.inputExt) = true :=
        goHasSuffix_append _ _
      have htrim : goTrimSuffix (mkInputName cfg i) (".in" ++ cfg.inputExt) = natStr i :=
        goTrimSuffix_append _ _
      refine ⟨⟨(i : Int), joinPath stepDir (mkInputName cfg i), data⟩ :: files, ?_, ?_⟩
      · simp only [List.map_cons, specEntry, collectStepFiles, Bool.false_eq_true,
                   if_false, hnoskip, hsuf, Bool.not_true, htrim, goAtoi_natStr]
        rw [if_neg (by omega : ¬((i : Int) ≤ 0)), hdata]
        simp [hcol, Except.map]
      · simp [specOrdinals, List.filterMap_cons, hmap, Int.ofNat_eq_coe]

theorem collect_all_skipped {T F E : Type} (cfg : StepConfig T F E)
    (fs : FileSys) (stepDir : String) : ∀ entries : List DirEntry,
    (∀ e ∈ entries, e.isDir = false ∧ isSkippedName cfg e.name = true) →
    collectStepFiles cfg fs stepDir entries = .ok [] := by
  intro entries
  induction entries with
  | nil => intro _; rfl
  | cons e rest ih =>
    intro h
    obtain ⟨hdir, hskip⟩ := h e (List.mem_cons_self _ _)
    have := ih (fun e' he' => h e' (List.mem_cons_of_mem _ he'))
    simp [collectStepFiles, hdir, hskip, this]

/-- Any successfully validated list is nonempty and carries exactly the
ordinals `1, …, length` in ascending order: the loader never returns a
partial or out-of-order list. -/
theorem validate_ok_shape {T F E : Type} (cfg : StepConfig T F E)
    (fs : FileSys) (stepDir : String) (entries : List DirEntry)
    (l : List StepFile)
    (h : validateAndLoadStepFiles cfg fs stepDir entries = .ok l) :
    l ≠ [] ∧ l.map (·.Step) = intRange 1 l.length := by
  rw [validateAndLoadStepFiles] at h
  cases hcol : collectStepFiles cfg fs stepDir entries with
  | error e => simp [hcol] at h
  | ok files =>
    simp only [hcol] at h
    by_cases hemp : files.isEmpty
    · simp [hemp] at h
    · simp only [Bool.not_eq_true] at hemp
      simp only [hemp, Bool.false_eq_true, if_false] at h
      cases hcd : checkDense 1 (List.insertionSort (fun a b => a.Step ≤ b.Step) files) with
      | some e => simp [hcd] at h
      | none =>
        simp only [hcd, Except.ok.injEq] at h
        subst h
        constructor
        · intro hnil
          have hperm := List.perm_insertionSort (fun a b => a.Step ≤ b.Step) files
          rw [hnil] at hperm
          rw [List.isEmpty_eq_false] at hemp
          exact hemp ((List.perm_nil.mp hperm.symm))
        · exact map_of_checkDense _ 1 hcd

/-- For a directory holding input files whose ordinals form a permutation of
`1, …, N` (plus skipped golden artifacts), the validator succeeds and yields
the `N` step files in ascending ordinal order. -/
theorem validate_perm_ok {T F E : Type} (cfg : StepConfig T F E)
    (fs : FileSys) (stepDir : String) (N : Nat) (ks : List EntrySpec)
    (hN : 0 < N)
    (hok : ∀ k ∈ ks, entrySpecOk cfg fs stepDir k = true)
    (hperm : (specOrdinals ks).Perm (List.range' 1 N)) :
    ∃ l, validateAndLoadStepFiles cfg fs stepDir (ks.map (specEntry cfg)) = .ok l ∧
      l.length = N ∧ l.map (·.Step) = intRange 1 N := by
  have hpos : ∀ i, EntrySpec.inp i ∈ ks → 1 ≤ i := by
    intro i hi
    have hmem : i ∈ specOrdinals ks := by
      simp only [specOrdinals, List.mem_filterMap]
      exact ⟨.inp i, hi, rfl⟩
    have := hperm.mem_iff.mp hmem
    rw [List.mem_range'] at this
    omega
  obtain ⟨files, hcol, hmap⟩ := collect_spec cfg fs stepDir ks hok hpos
  have hlen_ord : (specOrdinals ks).length = N := by
    have := hperm.length_eq
    simpa [List.length_range'] using this
  have hflen : files.length = N := by
    have := congrArg List.length hmap
    simpa [hlen_ord] using this
  have hne : files ≠ [] := by
    intro hnil
    rw [hnil] at hflen
    simp at hflen
    omega
  have hemp : files.isEmpty = false := by rwa [List.isEmpty_eq_false]
  have hperm_sorted := List.perm_insertionSort (fun a b => a.Step ≤ b.Step) files
  have hslen : (List.insertionSort (fun a b => a.Step ≤ b.Step) files).length = N := by
    rw [hperm_sorted.length_eq, hflen]
  have hmap_sorted :
      (List.insertionSort (fun a b => a.Step ≤ b.Step) files).map (·.Step)
        = intRange 1 N := by
    apply List.eq_of_perm_of_sorted (r := (· ≤ · : Int → Int → Prop))
    · have h1 : ((List.insertionSort (fun a b => a.Step ≤ b.Step) files).map (·.Step)).Perm
          (files.map (·.Step)) := hperm_sorted.map _
      have h2 : ((specOrdinals ks).map Int.ofNat).Perm
          ((List.range' 1 N).map Int.ofNat) := hperm.map _
      have h3 : (List.range' 1 N).map Int.ofNat = intRange 1 N := by
        simpa using range'_map_cast N 1
      rw [hmap] at h1
      rw [h3] at h2
      exact h1.trans h2
    · have hs := List.sorted_insertionSort (fun a b => a.Step ≤ b.Step) files
      exact List.pairwise_map.mpr hs
    · exact intRange_sorted 1 N
  have hcd : checkDense 1 (List.insertionSort (fun a b => a.Step ≤ b.Step) files) = none := by
    apply checkDense_of_map
    rw [hslen, hmap_sorted]
  refine ⟨List.insertionSort (fun a b => a.Step ≤ b.Step) files, ?_, hslen, hmap_sorted⟩
  rw [validateAndLoadStepFiles]
  simp only [hcol, hemp, Bool.false_eq_true, if_false, hcd]

/-! ## Claims C5 and C10 -/

/-- C5: for a TestCase directory whose input step files are numbered exactly
`1..N` (a permutation, so no gaps and no duplicates) alongside skipped golden
artifacts, `validateAndLoadStepFiles` returns exactly `N` `StepFile`s in
ascending ordinal order; moreover any successful return carries the full
dense ordinal sequence `1..length` — on a validation error no partial list is
ever produced (the Go function returns `nil` with the error, modelled by the
`Except.error` branch carrying no list). -/
theorem c5_loader {T F E : Type} (cfg : StepConfig T F E) (fs : FileSys)
    (stepDir : String) (N : Nat) (ks : List EntrySpec)
    (hN : 0 < N)
    (hok : ∀ k ∈ ks, entrySpecOk cfg fs stepDir k = true)
    (hperm : (specOrdinals ks).Perm (List.range' 1 N)) :
    (∃ l, validateAndLoadStepFiles cfg fs stepDir (ks.map (specEntry cfg)) = .ok l ∧
       l.length = N ∧ l.map (·.Step) = intRange 1 N) ∧
    (∀ (entries : List DirEntry) (l' : List StepFile),
       validateAndLoadStepFiles cfg fs stepDir entries = .ok l' →
       l'.map (·.Step) = intRange 1 l'.length) :=
  ⟨validate_perm_ok cfg fs stepDir N ks hN hok hperm,
   fun entries l' h => (validate_ok_shape cfg fs stepDir entries l' h).2⟩

theorem c5_witness :
    (∃ l, validateAndLoadStepFiles witCfg witFs "testdata/case1"
        (([.inp 2, .gold "9.out.json", .inp 1] : List EntrySpec).map (specEntry witCfg)) = .ok l ∧
       l.length = 2 ∧ l.map (·.Step) = intRange 1 2) ∧
    (∀ (entries : List DirEntry) (l' : List StepFile),
       validateAndLoadStepFiles witCfg witFs "testdata/case1" entries = .ok l' →
       l'.map (·.Step) = intRange 1 l'.length) :=
  c5_loader witCfg witFs "testdata/case1" 2 [.inp 2, .gold "9.out.json", .inp 1]
    (by decide) (by decide) (by decide)

/-- C10: a TestCase directory with no input step files at all — empty, or
holding only files carrying the skipped `.out` suffixes — fails validation
with the no-step-files-found error; and the loader never returns an empty
step list. -/
theorem c10_no_steps {T F E : Type} (cfg : StepConfig T F E) (fs : FileSys)
    (stepDir : String) :
    (∀ entries : List DirEntry,
       (∀ e ∈ entries, e.isDir = false ∧ isSkippedName cfg e.name = true) →
       validateAndLoadStepFiles cfg fs stepDir entries =
         .error "no step files found in directory") ∧
    (∀ (entries : List DirEntry) (l : List StepFile),
       validateAndLoadStepFiles cfg fs stepDir entries = .ok l → l ≠ []) := by
  constructor
  · intro entries h
    rw [validateAndLoadStepFiles, collect_all_skipped cfg fs stepDir entries h]
    rfl
  · intro entries l h
    exact (validate_ok_shape cfg fs stepDir entries l h).1

theorem c10_witness :
    validateAndLoadStepFiles witCfg witFs "testdata/case1"
      [⟨"1.out.json", false⟩, ⟨"3.out.txt", false⟩] =
      .error "no step files found in directory" ∧
    ([⟨1, "testdata/case1/1.in.hcl", "one"⟩] : List StepFile) ≠ [] :=
  ⟨(c10_no_steps witCfg witFs "testdata/case1").1
      [⟨"1.out.json", false⟩, ⟨"3.out.txt", false⟩] (by decide),
   (c10_no_steps witCfg witFs "testdata/case1").2
      [⟨"1.in.hcl", false⟩] [⟨1, "testdata/case1/1.in.hcl", "one"⟩] (by rfl)⟩

/-! ## The step executor: claim C4 -/

theorem execSteps_invoked_init {T F E : Type} (stepFn : F → StepFile → Except E T)
    (fx : F) : ∀ l : List StepFile,
    ∃ suf, l.map (·.Step) = (execSteps stepFn fx l).1 ++ suf := by
  intro l
  induction l with
  | nil => exact ⟨[], rfl⟩
  | cons sf rest ih =>
    obtain ⟨suf, hsuf⟩ := ih
    cases hstep : stepFn fx sf with
    | error e => exact ⟨rest.map (·.Step), by simp [execSteps, hstep]⟩
    | ok r =>
      refine ⟨suf, ?_⟩
      simp [execSteps, hstep, hsuf]

theorem execSteps_all_ok {T F E : Type} (stepFn : F → StepFile → Except E T)
    (fx : F) (g : StepFile → T) : ∀ l : List StepFile,
    (∀ sf ∈ l, stepFn fx sf = .ok (g sf)) →
    execSteps stepFn fx l = (l.map (·.Step), l.map g, none) := by
  intro l
  induction l with
  | nil => intro _; rfl
  | cons sf rest ih =>
    intro h
    have hsf := h sf (List.mem_cons_self _ _)
    have hrest := ih (fun x hx => h x (List.mem_cons_of_mem _ hx))
    simp [execSteps, hsf, hrest]

/-- C4: the executor feeds the step files to the step function in list order
(ascending ordinal order, since validated lists are ascending): with an
all-successful prefix `pre` and a first failing step `bad`, it invokes exactly
`pre ++ [bad]`, never any step of `post`, accumulates exactly the prior
successful results in order, and surfaces `bad`'s error; with no failing step
it invokes and accumulates everything in order with no terminal error; and
the invoked ordinals are always an initial segment of the input's ordinal
sequence, hence ascending whenever the input is ascending. -/
theorem c4_executor {T F E : Type} (stepFn : F → StepFile → Except E T) (fx : F) :
    (∀ (pre : List StepFile) (bad : StepFile) (post : List StepFile)
       (g : StepFile → T) (e : E),
       (∀ sf ∈ pre, stepFn fx sf = .ok (g sf)) → stepFn fx bad = .error e →
       execSteps stepFn fx (pre ++ bad :: post) =
         (pre.map (·.Step) ++ [bad.Step], pre.map g, some e)) ∧
    (∀ (l : List StepFile) (g : StepFile → T),
       (∀ sf ∈ l, stepFn fx sf = .ok (g sf)) →
       execSteps stepFn fx l = (l.map (·.Step), l.map g, none)) ∧
    (∀ l : List StepFile, List.Sorted (· < ·) (l.map (·.Step)) →
       List.Sorted (· < ·) (execSteps stepFn fx l).1) := by
  refine ⟨?_, fun l g h => execSteps_all_ok stepFn fx g l h, ?_⟩
  · intro pre
    induction pre with
    | nil =>
      intro bad post g e _ hbad
      simp [execSteps, hbad]
    | cons p pre' ih =>
      intro bad post g e hok hbad
      have hp := hok p (List.mem_cons_self _ _)
      have := ih bad post g e (fun x hx => hok x (List.mem_cons_of_mem _ hx)) hbad
      simp [execSteps, hp, this]
  · intro l hsorted
    obtain ⟨suf, hsuf⟩ := execSteps_invoked_init stepFn fx l
    rw [hsuf] at hsorted
    exact hsorted.sublist (List.sublist_append_left _ _)

theorem c4_witness :
    (execSteps (fun (_ : Unit) sf => if sf.Step = 2 then (.error "boom")
        else (.ok sf.Data : Except String String)) ()
      ([⟨1, "p1", "a"⟩] ++ ⟨2, "p2", "b"⟩ :: [⟨3, "p3", "c"⟩]) =
        ([1, 2], ["a"], some "boom")) ∧
    (execSteps (fun (_ : Unit) sf => if sf.Step = 2 then (.error "boom")
        else (.ok sf.Data : Except String String)) ()
      [⟨1, "p1", "a"⟩, ⟨3, "p3", "c"⟩] = ([1, 3], ["a", "c"], none)) ∧
    List.Sorted (· < ·) (execSteps (fun (_ : Unit) sf => if sf.Step = 2 then (.error "boom")
        else (.ok sf.Data : Except String String)) ()
      ([⟨1, "p1", "a"⟩] ++ ⟨2, "p2", "b"⟩ :: [⟨3, "p3", "c"⟩])).1 := by
  refine ⟨?_, ?_, ?_⟩
  · have := (c4_executor (fun (_ : Unit) sf => if sf.Step = 2 then (.error "boom")
        else (.ok sf.Data : Except String String)) ()).1
      [⟨1, "p1", "a"⟩] ⟨2, "p2", "b"⟩ [⟨3, "p3", "c"⟩] (·.Data) "boom"
      (by intro sf h; simp at h; subst h; rfl) (by rfl)
    simpa using this
  · have := (c4_executor (fun (_ : Unit) sf => if sf.Step = 2 then (.error "boom")
        else (.ok sf.Data : Except String String)) ()).2.1
      [⟨1, "p1", "a"⟩, ⟨3, "p3", "c"⟩] (·.Data)
      (by intro sf h; simp at h; rcases h with h | h <;> (subst h; rfl))
    simpa using this
  · exact (c4_executor (fun (_ : Unit) sf => if sf.Step = 2 then (.error "boom")
        else (.ok sf.Data : Except String String)) ()).2.2
      ([⟨1, "p1", "a"⟩] ++ ⟨2, "p2", "b"⟩ :: [⟨3, "p3", "c"⟩]) (by decide)

/-! ## Claim C7: configuration validation -/

/-- C7: `RunTests` aborts (t.Fatal, before the dispatched runner's first
`os.ReadDir`, hence before any TestCase and any file/directory I/O) exactly
when both or neither test function is set, exactly one of
ErrorFunc/ErrorOutputExt is set, or ErrorPrefix is set without ErrorFunc;
a valid configuration proceeds to the dispatched runner with defaults filled
in: ErrorPrefix `"error_"` (when error handling is on and none was given) and
the default Formatter/Loader for the unset codec fields. -/
theorem c7_config (c : HarnessFlags) :
    ((c.oneShotSet = c.stepSet ∨
      ¬(c.errorFuncSet = (c.errorOutputExt != "")) ∨
      (c.errorPre ≠ "" ∧ c.errorFuncSet = false)) ↔
      ∃ msg, runTestsSetup c = .error msg) ∧
    (∀ es, runTestsSetup c = .ok es →
      es.mode = (if c.oneShotSet then RunMode.oneShot else RunMode.step) ∧
      es.errorPre = (if c.errorFuncSet = true ∧ c.errorPre = "" then "error_"
                     else c.errorPre) ∧
      es.defaultFormatterUsed = !c.formatterSet ∧
      es.defaultLoaderUsed = !c.loaderSet) := by
  obtain ⟨os, st, ef, ep, eo, fm, lo⟩ := c
  simp only [runTestsSetup]
  cases os <;> cases st <;> cases ef <;>
    by_cases hep : ep = "" <;> by_cases heo : eo = "" <;>
      simp [hep, heo, EffectiveSetup.mk.injEq]

theorem c7_witness :
    (∃ msg, runTestsSetup witFlagsBad = .error msg) ∧
    ((⟨RunMode.step, "error_", true, true⟩ : EffectiveSetup).mode =
       (if witFlagsOk.oneShotSet then RunMode.oneShot else RunMode.step) ∧
     (⟨RunMode.step, "error_", true, true⟩ : EffectiveSetup).errorPre =
       (if witFlagsOk.errorFuncSet = true ∧ witFlagsOk.errorPre = "" then "error_"
        else witFlagsOk.errorPre) ∧
     (⟨RunMode.step, "error_", true, true⟩ : EffectiveSetup).defaultFormatterUsed =
       !witFlagsOk.formatterSet ∧
     (⟨RunMode.step, "error_", true, true⟩ : EffectiveSetup).defaultLoaderUsed =
       !witFlagsOk.loaderSet) :=
  ⟨(c7_config witFlagsBad).1.mp (by simp [witFlagsBad]),
   (c7_config witFlagsOk).2 ⟨RunMode.step, "error_", true, true⟩ (by rfl)⟩

/-! ## Claims C8 and C9: mismatch handling and missing goldens -/

/-- C8: on a comparison mismatch in update mode the harness writes the
formatted actual result (or the actual error bytes) over the golden artifact
in place and raises no failure for that step (the success loop continues);
in verify mode the same mismatch is reported as a failure and nothing is
written.  Stated for the error-case comparison and for the head step of the
success-case loop. -/
theorem c8_update_rewrite {T F E : Type} (cfg : StepConfig T F E) (fs : FileSys)
    (stepDir : String) :
    (∀ (errorFile : String) (e : E) (ef : E → String),
      (fs (joinPath stepDir errorFile)).getD "" ≠ ef e →
      (testErrorCaseStep fs true stepDir errorFile e ef).writes
          = [(joinPath stepDir errorFile, ef e)] ∧
      (testErrorCaseStep fs true stepDir errorFile e ef).failures = [] ∧
      (testErrorCaseStep fs false stepDir errorFile e ef).failures
          = [.errOutputMismatch errorFile] ∧
      (testErrorCaseStep fs false stepDir errorFile e ef).writes = []) ∧
    (∀ (sf : StepFile) (r : T) (rest : List (StepFile × T)) (expected : T)
       (bytes : String),
      cfg.loader ((fs (joinPath stepDir
          (intStr sf.Step ++ (".out" ++ cfg.successOutputExt)))).getD "")
        = .ok expected →
      cfg.isEq expected r = false →
      cfg.formatter r = .ok bytes →
      (successLoop cfg fs true stepDir ((sf, r) :: rest)).writes
          = (joinPath stepDir (intStr sf.Step ++ (".out" ++ cfg.successOutputExt)),
             bytes) :: (successLoop cfg fs true stepDir rest).writes ∧
      (successLoop cfg fs true stepDir ((sf, r) :: rest)).failures
          = (successLoop cfg fs true stepDir rest).failures ∧
      (successLoop cfg fs false stepDir ((sf, r) :: rest)).failures
          = .stepMismatch sf.Step :: (successLoop cfg fs false stepDir rest).failures ∧
      (successLoop cfg fs false stepDir ((sf, r) :: rest)).writes
          = (successLoop cfg fs false stepDir rest).writes) := by
  constructor
  · intro errorFile e ef hmis
    cases hread : fs (joinPath stepDir errorFile) with
    | none =>
      rw [hread] at hmis
      simp only [Option.getD_none] at hmis
      simp [testErrorCaseStep, hread, hmis, StepOut.app]
    | some d =>
      rw [hread] at hmis
      simp only [Option.getD_some] at hmis
      simp [testErrorCaseStep, hread, hmis, StepOut.app]
  · intro sf r rest expected bytes hload hne hfmt
    cases hread : fs (joinPath stepDir
        (intStr sf.Step ++ (".out" ++ cfg.successOutputExt))) with
    | none =>
      rw [hread] at hload
      simp only [Option.getD_none] at hload
      simp [successLoop, hread, hload, hne, hfmt, StepOut.app]
    | some d =>
      rw [hread] at hload
      simp only [Option.getD_some] at hload
      simp [successLoop, hread, hload, hne, hfmt, StepOut.app]

theorem c8_witness :
    ((testErrorCaseStep witFs true "testdata/case1" "1.out.txt" "boom" id).writes
        = [("testdata/case1/1.out.txt", "boom")] ∧
     (testErrorCaseStep witFs true "testdata/case1" "1.out.txt" "boom" id).failures = [] ∧
     (testErrorCaseStep witFs false "testdata/case1" "1.out.txt" "boom" id).failures
        = [.errOutputMismatch "1.out.txt"] ∧
     (testErrorCaseStep witFs false "testdata/case1" "1.out.txt" "boom" id).writes = []) ∧
    ((successLoop witCfg witFs true "testdata/case1" [(⟨1, "p", "x"⟩, "got")]).writes
        = ("testdata/case1/1.out.json", "got")
            :: (successLoop witCfg witFs true "testdata/case1" []).writes ∧
     (successLoop witCfg witFs true "testdata/case1" [(⟨1, "p", "x"⟩, "got")]).failures
        = (successLoop witCfg witFs true "testdata/case1" []).failures ∧
     (successLoop witCfg witFs false "testdata/case1" [(⟨1, "p", "x"⟩, "got")]).failures
        = .stepMismatch 1
            :: (successLoop witCfg witFs false "testdata/case1" []).failures ∧
     (successLoop witCfg witFs false "testdata/case1" [(⟨1, "p", "x"⟩, "got")]).writes
        = (successLoop witCfg witFs false "testdata/case1" []).writes) :=
  ⟨(c8_update_rewrite witCfg witFs "testdata/case1").1 "1.out.txt" "boom" id
     (by decide),
   (c8_update_rewrite witCfg witFs "testdata/case1").2 ⟨1, "p", "x"⟩ "got" []
     "" "got" (by rfl) (by decide) (by rfl)⟩

/-- C9: a missing or unreadable golden artifact is not itself a failure —
the read error is only logged and the comparison proceeds with empty
expected bytes (in the success path, the `Loader` is applied to empty
bytes and a passing comparison continues the loop); in particular a
failure-expected case whose formatted terminal-error bytes are empty
passes (no failure, no write) against a nonexistent error-golden file. -/
theorem c9_missing_golden {T F E : Type} (cfg : StepConfig T F E)
    (fs : FileSys) (update : Bool) (stepDir : String) :
    (∀ (errorFile : String) (e : E) (ef : E → String),
      fs (joinPath stepDir errorFile) = none →
      (testErrorCaseStep fs update stepDir errorFile e ef).logs
          = ["failed to read expected error output file"] ∧
      (ef e = "" →
        (testErrorCaseStep fs update stepDir errorFile e ef).failures = [] ∧
        (testErrorCaseStep fs update stepDir errorFile e ef).writes = [])) ∧
    (∀ (sf : StepFile) (r : T) (rest : List (StepFile × T)) (expected : T),
      fs (joinPath stepDir (intStr sf.Step ++ (".out" ++ cfg.successOutputExt)))
          = none →
      cfg.loader "" = .ok expected →
      cfg.isEq expected r = true →
      successLoop cfg fs update stepDir ((sf, r) :: rest)
          = StepOut.app
              { logs := ["failed to read expected output file "
                          ++ (intStr sf.Step ++ (".out" ++ cfg.successOutputExt))] }
              (successLoop cfg fs update stepDir rest)) := by
  constructor
  · intro errorFile e ef hread
    constructor
    · simp only [testErrorCaseStep, hread]
      split
      · split <;> rfl
      · rfl
    · intro hemp
      simp [testErrorCaseStep, hread, hemp]
  · intro sf r rest expected hread hload heq
    simp [successLoop, hread, hload, heq]

theorem c9_witness :
    ((testErrorCaseStep witFs false "testdata/case1" "9.out.txt" "" id).logs
        = ["failed to read expected error output file"] ∧
     ((id "" : String) = "" →
       (testErrorCaseStep witFs false "testdata/case1" "9.out.txt" "" id).failures = [] ∧
       (testErrorCaseStep witFs false "testdata/case1" "9.out.txt" "" id).writes = [])) ∧
    successLoop witCfg witFs false "testdata/case1" [(⟨1, "p", ""⟩, "")]
        = StepOut.app
            { logs := ["failed to read expected output file "
                        ++ (intStr (1 : Int) ++ (".out" ++ witCfg.successOutputExt))] }
            (successLoop witCfg witFs false "testdata/case1" []) :=
  ⟨(c9_missing_golden witCfg witFs false "testdata/case1").1 "9.out.txt" "" id
     (by decide),
   (c9_missing_golden witCfg witFs false "testdata/case1").2 ⟨1, "p", ""⟩ "" []
     "" (by decide) (by rfl) (by decide)⟩

/-! ## Claims C1, C2, C3: the per-TestCase runner -/

/-- C2 counterexample: a TestCase whose step-file listing fails validation (a
subdirectory entry), yet the setup callback has been invoked (`setupCalls =
1`) and teardown ran — refuting "the setup callback is never invoked and no
Fixture is ever created" for validation-failing cases: in the code, `SetUp`
runs before `validateAndLoadStepFiles`. -/
theorem c2_counterexample :
    (runStepCase witCfg witFs false "testdata" "case1" [⟨"sub", true⟩]).failures
        = [.fatalValidate] ∧
    (runStepCase witCfg witFs false "testdata" "case1" [⟨"sub", true⟩]).setupCalls
        = 1 ∧
    (runStepCase witCfg witFs false "testdata" "case1" [⟨"sub", true⟩]).teardownCalls
        = 1 ∧
    (runStepCase witCfg witFs false "testdata" "case1" [⟨"sub", true⟩]).invoked
        = [] := by
  refine ⟨by decide, by decide, by decide, by decide⟩

/-- C2 (amended): a TestCase whose step-file sequence fails validation is
reported failed (`t.Fatalf`) without any step executing and with no
comparison and no write; however the fixture setup has *already* run —
`SetUp` precedes validation in the code, so the case does reach FixtureReady
first — and a configured teardown still runs afterwards. -/
theorem c2_amended {T F E : Type} [Inhabited F] (cfg : StepConfig T F E)
    (fs : FileSys) (update : Bool) (dir caseName : String)
    (entries : List DirEntry) (msg : String)
    (hsetup : ∀ e : E, cfg.setUp ≠ some (.error e))
    (hval : validateAndLoadStepFiles cfg fs (joinPath dir caseName) entries
              = .error msg) :
    ∃ tail, runStepCase cfg fs update dir caseName entries =
      { setupCalls := if cfg.setUp.isSome then 1 else 0,
        teardownCalls := if cfg.tearDown.isSome then 1 else 0,
        invoked := [],
        comparedErrorFile := none,
        failures := .fatalValidate :: tail,
        logs := [], writes := [] } ∧
      (tail = [] ∨ tail = [.teardownFailed]) := by
  have hcore : ∀ fx : F, stepCaseCore cfg fs update dir caseName entries fx
      = { failures := [.fatalValidate] } := by
    intro fx
    simp only [stepCaseCore, hval]
  cases hsu : cfg.setUp with
  | some x =>
    cases x with
    | error e => exact absurd hsu (hsetup e)
    | ok fx =>
      cases htd : cfg.tearDown with
      | none =>
        refine ⟨[], ?_, Or.inl rfl⟩
        simp [runStepCase, hsu, htd, hcore]
      | some td =>
        cases htde : td (caseFixture cfg) with
        | none =>
          refine ⟨[], ?_, Or.inl rfl⟩
          simp [runStepCase, hsu, htd, hcore, htde]
        | some e' =>
          refine ⟨[.teardownFailed], ?_, Or.inr rfl⟩
          simp [runStepCase, hsu, htd, hcore, htde]
  | none =>
    cases htd : cfg.tearDown with
    | none =>
      refine ⟨[], ?_, Or.inl rfl⟩
      simp [runStepCase, hsu, htd, hcore]
    | some td =>
      cases htde : td (caseFixture cfg) with
      | none =>
        refine ⟨[], ?_, Or.inl rfl⟩
        simp [runStepCase, hsu, htd, hcore, htde]
      | some e' =>
        refine ⟨[.teardownFailed], ?_, Or.inr rfl⟩
        simp [runStepCase, hsu, htd, hcore, htde]

theorem c2_amended_witness :
    ∃ tail, runStepCase witCfg witFs false "testdata" "case1" [⟨"sub", true⟩] =
      { setupCalls := if witCfg.setUp.isSome then 1 else 0,
        teardownCalls := if witCfg.tearDown.isSome then 1 else 0,
        invoked := [],
        comparedErrorFile := none,
        failures := .fatalValidate :: tail,
        logs := [], writes := [] } ∧
      (tail = [] ∨ tail = [.teardownFailed]) :=
  c2_amended witCfg witFs false "testdata" "case1" [⟨"sub", true⟩]
    "unexpected subdirectory sub in step directory"
    (by intro e h; simp [witCfg] at h) (by rfl)

/-- `isSkippedName` ignores the `TearDown` field. -/
theorem isSkippedName_td {T F E : Type} (cfg : StepConfig T F E)
    (td' : Option (F → Option E)) (name : String) :
    isSkippedName { cfg with tearDown := td' } name = isSkippedName cfg name := rfl

/-- `collectStepFiles` ignores the `TearDown` field. -/
theorem collectStepFiles_td {T F E : Type} (cfg : StepConfig T F E)
    (td' : Option (F → Option E)) (fs : FileSys) (stepDir : String) :
    ∀ entries : List DirEntry,
    collectStepFiles { cfg with tearDown := td' } fs stepDir entries
      = collectStepFiles cfg fs stepDir entries := by
  intro entries
  induction entries with
  | nil => rfl
  | cons e rest ih => simp only [collectStepFiles, ih, isSkippedName_td]

/-- `validateAndLoadStepFiles` ignores the `TearDown` field. -/
theorem validate_td {T F E : Type} (cfg : StepConfig T F E)
    (td' : Option (F → Option E)) (fs : FileSys) (stepDir : String)
    (entries : List DirEntry) :
    validateAndLoadStepFiles { cfg with tearDown := td' } fs stepDir entries
      = validateAndLoadStepFiles cfg fs stepDir entries := by
  simp only [validateAndLoadStepFiles, collectStepFiles_td]

/-- `successLoop` ignores the `TearDown` field. -/
theorem successLoop_td {T F E : Type} (cfg : StepConfig T F E)
    (td' : Option (F → Option E)) (fs : FileSys) (update : Bool)
    (stepDir : String) : ∀ l : List (StepFile × T),
    successLoop { cfg with tearDown := td' } fs update stepDir l
      = successLoop cfg fs update stepDir l := by
  intro l
  induction l with
  | nil => rfl
  | cons p rest ih => simp only [successLoop, ih]

/-- `testSuccessCaseSteps` ignores the `TearDown` field. -/
theorem testSuccessCaseSteps_td {T F E : Type} (cfg : StepConfig T F E)
    (td' : Option (F → Option E)) (fs : FileSys) (update : Bool)
    (stepDir : String) (stepFiles : List StepFile) (results : List T) :
    testSuccessCaseSteps { cfg with tearDown := td' } fs update stepDir
        stepFiles results
      = testSuccessCaseSteps cfg fs update stepDir stepFiles results := by
  simp only [testSuccessCaseSteps, successLoop_td]

/-- The body of a TestCase is unchanged when only `TearDown` changes:
`stepCaseCore` never reads it. -/
theorem stepCaseCore_td {T F E : Type} (cfg : StepConfig T F E)
    (td' : Option (F → Option E)) (fs : FileSys) (update : Bool)
    (dir caseName : String) (entries : List DirEntry) (fx : F) :
    stepCaseCore { cfg with tearDown := td' } fs update dir caseName entries fx
      = stepCaseCore cfg fs update dir caseName entries fx := by
  simp only [stepCaseCore, validate_td, testSuccessCaseSteps_td]

/-- The body of a TestCase never touches the callback counters. -/
theorem stepCaseCore_teardownCalls {T F E : Type} (cfg : StepConfig T F E)
    (fs : FileSys) (update : Bool) (dir caseName : String)
    (entries : List DirEntry) (fx : F) :
    (stepCaseCore cfg fs update dir caseName entries fx).teardownCalls = 0 := by
  rw [stepCaseCore]
  repeat' split
  all_goals rfl

/-- With non-failing (or absent) setup, the trace of a TestCase is its
teardown-independent core plus setup/teardown bookkeeping, teardown failures
appended after the body's failures. -/
theorem runStepCase_eq {T F E : Type} [Inhabited F] (cfg : StepConfig T F E)
    (fs : FileSys) (update : Bool) (dir caseName : String)
    (entries : List DirEntry)
    (hsetup : ∀ e : E, cfg.setUp ≠ some (.error e)) :
    runStepCase cfg fs update dir caseName entries =
      { stepCaseCore cfg fs update dir caseName entries (caseFixture cfg) with
        setupCalls := if cfg.setUp.isSome then 1 else 0,
        teardownCalls := if cfg.tearDown.isSome then 1 else 0,
        failures :=
          (stepCaseCore cfg fs update dir caseName entries
              (caseFixture cfg)).failures ++
            (match cfg.tearDown with
             | none => []
             | some td =>
               match td (caseFixture cfg) with
               | none => []
               | some _ => [TEvent.teardownFailed]) } := by
  cases hsu : cfg.setUp with
  | some x =>
    cases x with
    | error e => exact absurd hsu (hsetup e)
    | ok fx =>
      cases htd : cfg.tearDown with
      | none => simp [runStepCase, hsu, htd, stepCaseCore_teardownCalls]
      | some td =>
        cases htde : td (caseFixture cfg) with
        | none => simp [runStepCase, hsu, htd, htde]
        | some e' => simp [runStepCase, hsu, htd, htde]
  | none =>
    cases htd : cfg.tearDown with
    | none => simp [runStepCase, hsu, htd, stepCaseCore_teardownCalls]
    | some td =>
      cases htde : td (caseFixture cfg) with
      | none => simp [runStepCase, hsu, htd, htde]
      | some e' => simp [runStepCase, hsu, htd, htde]

/-- C3: whenever setup succeeds (or no setup callback is configured), a
configured teardown callback runs exactly once — after the body, whatever its
outcome — and its only effect relative to a teardown-free run is to append
the single teardown-failure report when it errors: every other component of
the trace (steps invoked, comparisons, failures, logs, writes) is unchanged,
so a teardown error never masks the primary step/comparison outcome. -/
theorem c3_teardown_once {T F E : Type} [Inhabited F] (cfg : StepConfig T F E)
    (fs : FileSys) (update : Bool) (dir caseName : String)
    (entries : List DirEntry) (td : F → Option E)
    (hsetup : ∀ e : E, cfg.setUp ≠ some (.error e))
    (htd : cfg.tearDown = some td) :
    (runStepCase cfg fs update dir caseName entries).teardownCalls = 1 ∧
    runStepCase cfg fs update dir caseName entries =
      { runStepCase { cfg with tearDown := none } fs update dir caseName entries with
          teardownCalls := 1,
          failures :=
            (runStepCase { cfg with tearDown := none } fs update dir
                caseName entries).failures ++
              (match td (caseFixture cfg) with
               | none => []
               | some _ => [TEvent.teardownFailed]) } := by
  have hsetup' : ∀ e : E, ({ cfg with tearDown := none } : StepConfig T F E).setUp
      ≠ some (.error e) := hsetup
  have h1 := runStepCase_eq cfg fs update dir caseName entries hsetup
  have h2 := runStepCase_eq { cfg with tearDown := none } fs update dir caseName
    entries hsetup'
  have hfx : caseFixture ({ cfg with tearDown := none } : StepConfig T F E)
      = caseFixture cfg := rfl
  rw [stepCaseCore_td, hfx] at h2
  rw [h1, h2, htd]
  refine ⟨by simp, ?_⟩
  cases htde : td (caseFixture cfg) <;> simp [htde]

theorem c3_witness :
    (runStepCase witCfg witFs false "testdata" "case1"
        [⟨"1.in.hcl", false⟩]).teardownCalls = 1 ∧
    runStepCase witCfg witFs false "testdata" "case1" [⟨"1.in.hcl", false⟩] =
      { runStepCase { witCfg with tearDown := none } witFs false "testdata"
          "case1" [⟨"1.in.hcl", false⟩] with
          teardownCalls := 1,
          failures :=
            (runStepCase { witCfg with tearDown := none } witFs false "testdata"
                "case1" [⟨"1.in.hcl", false⟩]).failures ++
              (match (fun _ => none : Unit → Option String) (caseFixture witCfg) with
               | none => []
               | some _ => [TEvent.teardownFailed]) } :=
  c3_teardown_once witCfg witFs false "testdata" "case1" [⟨"1.in.hcl", false⟩]
    (fun _ => none) (by intro e h; simp [witCfg] at h) (by rfl)

/-- C1 counterexample: a failure-expected TestCase with three step files
whose step function errors at step 1 (`invoked = [1]`, so the last step
ordinal reached is 1): the harness compares against `3.out.txt` — the file
named after the *total* number of step files — not `1.out.txt` as the claim
(golden named for the last ordinal reached) requires. -/
theorem c1_counterexample :
    (runStepCase witCfgFail witFs3 false "testdata" "error_case" witEnts3).invoked
        = [1] ∧
    (runStepCase witCfgFail witFs3 false "testdata" "error_case"
        witEnts3).comparedErrorFile = some "3.out.txt" ∧
    ("3.out.txt" : String) ≠ "1.out.txt" :=
  ⟨by decide, by decide, by decide⟩

/-- C1 (amended): in a failure-expected TestCase whose step sequence
terminates in an error, the harness compares the Error Formatter's bytes
against the golden artifact named for the *total number of step files* in
the directory, `{len(stepFiles)}.out{errorExt}` — which coincides with the
ordinal of the erroring step only when the error occurs at the final step. -/
theorem c1_amended {T F E : Type} [Inhabited F] (cfg : StepConfig T F E)
    (fs : FileSys) (update : Bool) (dir caseName : String)
    (entries : List DirEntry) (ef : E → String) (stepFiles : List StepFile)
    (inv : List Int) (res : List T) (e : E)
    (hsetup : ∀ e' : E, cfg.setUp ≠ some (.error e'))
    (hef : cfg.errorFunc = some ef)
    (hname : goHasPre caseName cfg.errorPre = true)
    (hval : validateAndLoadStepFiles cfg fs (joinPath dir caseName) entries
              = .ok stepFiles)
    (hexec : execSteps cfg.stepTestFunc (caseFixture cfg) stepFiles
              = (inv, res, some e)) :
    (runStepCase cfg fs update dir caseName entries).comparedErrorFile
        = some (natStr stepFiles.length ++ (".out" ++ cfg.errorOutputExt)) := by
  have hcore : (stepCaseCore cfg fs update dir caseName entries
      (caseFixture cfg)).comparedErrorFile
        = some (natStr stepFiles.length ++ (".out" ++ cfg.errorOutputExt)) := by
    simp [stepCaseCore, hval, hexec, hef, hname]
  rw [runStepCase_eq cfg fs update dir caseName entries hsetup]
  exact hcore

theorem c1_amended_witness :
    (runStepCase witCfgFail witFs3 false "testdata" "error_case"
        witEnts3).comparedErrorFile
      = some (natStr ([⟨1, "testdata/error_case/1.in.hcl", "one"⟩,
                       ⟨2, "testdata/error_case/2.in.hcl", "two"⟩,
                       ⟨3, "testdata/error_case/3.in.hcl", "three"⟩]
                        : List StepFile).length
              ++ (".out" ++ witCfgFail.errorOutputExt)) :=
  c1_amended witCfgFail witFs3 false "testdata" "error_case" witEnts3 id
    [⟨1, "testdata/error_case/1.in.hcl", "one"⟩,
     ⟨2, "testdata/error_case/2.in.hcl", "two"⟩,
     ⟨3, "testdata/error_case/3.in.hcl", "three"⟩]
    [1] [] "boom"
    (by intro e h; simp [witCfgFail, witCfg] at h)
    (by rfl) (by decide) (by rfl) (by rfl)

/-! ## Codec lemmas: whitespace and character classes -/

theorem skipWs_not {c : Char} (h : isWsCh c = false) (cs : List Char) :
    skipWs (c :: cs) = c :: cs := by
  simp [skipWs, h]

theorem skipWs_ws {c : Char} (h : isWsCh c = true) (cs : List Char) :
    skipWs (c :: cs) = skipWs cs := by
  simp [skipWs, h]

theorem skipWs_spaces : ∀ (n : Nat) (cs : List Char),
    skipWs (spaces n ++ cs) = skipWs cs := by
  intro n
  induction n with
  | zero => intro cs; rfl
  | succ m ih =>
    intro cs
    simp only [spaces, List.cons_append]
    rw [skipWs_ws (by decide), skipWs_ws (by decide), ih]

theorem skipWs_nl (cs : List Char) : skipWs ('\n' :: cs) = skipWs cs :=
  skipWs_ws (by decide) cs

theorem skipWs_idem : ∀ cs : List Char, skipWs (skipWs cs) = skipWs cs := by
  intro cs
  induction cs with
  | nil => rfl
  | cons c t ih =>
    by_cases h : isWsCh c = true
    · rw [skipWs_ws h, ih]
    · rw [skipWs_not (by simp [h]), skipWs_not (by simp [h])]

theorem digitCh_class {c : Char} (h : isDigitCh c = true) :
    isWsCh c = false ∧ c ≠ ']' ∧ c ≠ '}' ∧ c ≠ ',' ∧ c ≠ ':' ∧ c ≠ '"' ∧
    c ≠ '\\' ∧ c ≠ '-' ∧ c ≠ '+' ∧ c ≠ 'n' ∧ c ≠ 't' ∧ c ≠ 'f' ∧
    c ≠ '[' ∧ c ≠ '{' := by
  have hsp : c ≠ ' ' := fun e => by subst e; exact absurd h (by decide)
  have hnl : c ≠ '\n' := fun e => by subst e; exact absurd h (by decide)
  have htb : c ≠ '\t' := fun e => by subst e; exact absurd h (by decide)
  have hcr : c ≠ '\r' := fun e => by subst e; exact absurd h (by decide)
  refine ⟨by simp [isWsCh, hsp, hnl, htb, hcr], ?_, ?_, ?_, ?_, ?_, ?_, ?_, ?_,
    ?_, ?_, ?_, ?_, ?_⟩ <;>
    exact fun e => by subst e; exact absurd h (by decide)

/-! ## Codec lemmas: string escaping round trip -/

theorem parseStrBody_escChar (c : Char) (acc rest : List Char) :
    parseStrBody acc (escChar c ++ rest) = parseStrBody (c :: acc) rest := by
  by_cases h1 : c = '"'
  · subst h1; simp [escChar, parseStrBody, unesc]
  · by_cases h2 : c = '\\'
    · subst h2; simp [escChar, parseStrBody, unesc, h1]
    · by_cases h3 : c = '\n'
      · subst h3; simp [escChar, parseStrBody, unesc, h1, h2]
      · by_cases h4 : c = '\t'
        · subst h4; simp [escChar, parseStrBody, unesc, h1, h2, h3]
        · by_cases h5 : c = '\r'
          · subst h5; simp [escChar, parseStrBody, unesc, h1, h2, h3, h4]
          · simp [escChar, parseStrBody, h1, h2, h3, h4, h5]

theorem parseStrBody_flatten : ∀ (l acc rest : List Char),
    parseStrBody acc ((l.map escChar).flatten ++ '"' :: rest)
      = some (⟨acc.reverse ++ l⟩, rest) := by
  intro l
  induction l with
  | nil => intro acc rest; simp [parseStrBody]
  | cons c t ih =>
    intro acc rest
    rw [List.map_cons, List.flatten_cons, List.append_assoc, parseStrBody_escChar,
        ih (c :: acc) rest]
    simp

theorem parseStrBody_qstr (s : String) (rest : List Char) :
    parseStrBody [] ((s.toList.map escChar).flatten ++ '"' :: rest)
      = some (s, rest) := by
  rw [parseStrBody_flatten]
  rfl

/-! ## Codec lemmas: integer round trip -/

/-- Is the head of `l` (if any) outside the class `p`? -/
def headNotP (p : Char → Bool) : List Char → Bool
  | [] => true
  | c :: _ => !p c

theorem spanP_append (p : Char → Bool) : ∀ (a rest : List Char),
    (∀ c ∈ a, p c = true) → headNotP p rest = true →
    spanP p (a ++ rest) = (a, rest) := by
  intro a
  induction a with
  | nil =>
    intro rest _ hrest
    cases rest with
    | nil => rfl
    | cons c t =>
      simp only [headNotP, Bool.not_eq_true'] at hrest
      simp [spanP, hrest]
  | cons c t ih =>
    intro rest ha hrest
    have hc : p c = true := ha c (List.mem_cons_self _ _)
    have := ih rest (fun x hx => ha x (List.mem_cons_of_mem _ hx)) hrest
    simp [spanP, hc, this]

theorem natChars_cons (n : Nat) :
    ∃ c t, natChars n = c :: t ∧ isDigitCh c = true := by
  match h : natChars n with
  | [] => exact absurd h (natChars_ne_nil n)
  | c :: t =>
    have := allDigits_natChars n
    rw [h] at this
    simp only [allDigits, List.all_cons, Bool.and_eq_true] at this
    exact ⟨c, t, rfl, this.1⟩

theorem natChars_all_digit (n : Nat) : ∀ c ∈ natChars n, isDigitCh c = true := by
  have := allDigits_natChars n
  simp only [allDigits, List.all_eq_true] at this
  exact this

theorem spanP_natChars (n : Nat) (rest : List Char)
    (hrest : headNotP isDigitCh rest = true) :
    spanP isDigitCh (natChars n ++ rest) = (natChars n, rest) :=
  spanP_append isDigitCh (natChars n) rest (natChars_all_digit n) hrest

theorem parseIntL_intChars (i : Int) (rest : List Char)
    (hrest : headNotP isDigitCh rest = true) :
    parseIntL (intChars i ++ rest) = some (i, rest) := by
  by_cases hneg : i < 0
  · have harg : intChars i ++ rest = '-' :: (natChars i.natAbs ++ rest) := by
      simp [intChars, hneg]
    rw [harg]
    simp only [parseIntL, spanP_natChars i.natAbs rest hrest]
    rw [if_neg (by simp [List.isEmpty_iff, natChars_ne_nil])]
    rw [digitsVal_natChars]
    simp only [Option.some.injEq, Prod.mk.injEq]
    refine ⟨by omega, by simp⟩
  · obtain ⟨c, t, hct, hcd⟩ := natChars_cons i.natAbs
    obtain ⟨hws, hbr, hbc, hcm, hco, hq, hbs, hmn, hpl, hn, ht', hf, hlb, hob⟩ :=
      digitCh_class hcd
    have harg : intChars i ++ rest = c :: (t ++ rest) := by
      simp [intChars, hneg, hct]
    have hspan : spanP isDigitCh (c :: (t ++ rest)) = (c :: t, rest) := by
      have := spanP_natChars i.natAbs rest hrest
      rwa [hct, List.cons_append] at this
    rw [harg]
    simp only [parseIntL]
    split
    · rename_i rest' heq
      injection heq with h1 h2
      exact absurd h1 hmn
    · rw [hspan]
      have hdv : digitsVal (c :: t) = i.natAbs := by
        have := digitsVal_natChars i.natAbs
        rwa [hct] at this
      simp only [List.isEmpty_cons, Bool.false_eq_true, if_false, hdv,
                 Option.some.injEq, Prod.mk.injEq]
      refine ⟨by omega, by simp⟩

/-! ## Codec lemmas: rendered output shape -/

theorem natChars_length_pos (n : Nat) : 0 < (natChars n).length :=
  List.length_pos.mpr (natChars_ne_nil n)

theorem intChars_length_pos (i : Int) : 0 < (intChars i).length := by
  unfold intChars
  have := natChars_length_pos i.natAbs
  by_cases h : i < 0 <;> simp [h] <;> omega

/-- Every rendered JSON value begins with a non-whitespace character that is
none of the closing/separator characters. -/
theorem jRender_head (ind : Nat) (v : Jval) :
    ∃ c t, jRender ind v = c :: t ∧ isWsCh c = false ∧
      c ≠ ']' ∧ c ≠ '}' ∧ c ≠ ',' := by
  cases v with
  | jnull => exact ⟨'n', ['u', 'l', 'l'], by simp [jRender], by decide, by decide, by decide, by decide⟩
  | jbool b =>
    cases b with
    | true => exact ⟨'t', ['r', 'u', 'e'], by simp [jRender], by decide, by decide, by decide, by decide⟩
    | false => exact ⟨'f', ['a', 'l', 's', 'e'], by simp [jRender], by decide, by decide, by decide, by decide⟩
  | jstr s => exact ⟨'"', (s.toList.map escChar).flatten ++ ['"'],
      by simp [jRender, qstr], by decide, by decide, by decide, by decide⟩
  | jint i =>
    by_cases hneg : i < 0
    · exact ⟨'-', natChars i.natAbs, by simp [jRender, intChars, hneg],
        by decide, by decide, by decide, by decide⟩
    · obtain ⟨c, t, hct, hcd⟩ := natChars_cons i.natAbs
      obtain ⟨hws, hbr, hbc, hcm, _⟩ := digitCh_class hcd
      exact ⟨c, t, by simp [jRender, intChars, hneg, hct], hws, hbr, hbc, hcm⟩
  | jarr es =>
    cases es with
    | nil => exact ⟨'[', [']'], by simp [jRender], by decide, by decide, by decide, by decide⟩
    | cons e es' =>
      exact ⟨'[', '\n' :: (spaces (ind + 1) ++
          (jRenderItems ind e es' ++ '\n' :: (spaces ind ++ [']']))),
        by simp [jRender], by decide, by decide, by decide, by decide⟩
  | jobj fs =>
    cases fs with
    | fnil => exact ⟨'{', ['}'], by simp [jRender], by decide, by decide, by decide, by decide⟩
    | fcons k v' fs' =>
      exact ⟨'{', '\n' :: (spaces (ind + 1) ++
          (jRenderFields ind k v' fs' ++ '\n' :: (spaces ind ++ ['}']))),
        by simp [jRender], by decide, by decide, by decide, by decide⟩

/-- Rendered element lists start with the first element's head character. -/
theorem jRenderItems_head (ind : Nat) (e : Jval) (es : Jlist) :
    ∃ c t, jRenderItems ind e es = c :: t ∧ isWsCh c = false ∧
      c ≠ ']' ∧ c ≠ '}' ∧ c ≠ ',' := by
  obtain ⟨c, t, hct, hws, h1, h2, h3⟩ := jRender_head (ind + 1) e
  cases es with
  | nil => exact ⟨c, t, by simp [jRenderItems, hct], hws, h1, h2, h3⟩
  | cons e2 es' =>
    exact ⟨c, t ++ (',' :: '\n' :: (spaces (ind + 1) ++ jRenderItems ind e2 es')),
      by simp [jRenderItems, hct], hws, h1, h2, h3⟩

/-! ## Codec lemmas: the measure is below the rendered length -/

mutual
theorem jvalFuel_le : ∀ (ind : Nat) (v : Jval), jvalFuel v ≤ (jRender ind v).length
  | _, .jnull => by simp [jvalFuel, jRender]
  | _, .jbool b => by cases b <;> simp [jvalFuel, jRender]
  | ind, .jint i => by
    have := intChars_length_pos i
    simp only [jvalFuel, jRender]
    omega
  | _, .jstr s => by simp [jvalFuel, jRender, qstr]
  | _, .jarr .nil => by simp [jvalFuel, jlistFuel, jRender]
  | ind, .jarr (.cons e es) => by
    have h := jlistFuel_le ind e es
    simp only [jvalFuel, jRender, List.length_cons, List.length_append]
    omega
  | _, .jobj .fnil => by simp [jvalFuel, jfieldsFuel, jRender]
  | ind, .jobj (.fcons k v fs) => by
    have h := jfieldsFuel_le ind k v fs
    simp only [jvalFuel, jRender, List.length_cons, List.length_append]
    omega
termination_by _ v => sizeOf v
theorem jlistFuel_le : ∀ (ind : Nat) (e : Jval) (es : Jlist),
    jlistFuel (.cons e es) ≤ (jRenderItems ind e es).length + 2
  | ind, e, .nil => by
    have := jvalFuel_le (ind + 1) e
    simp only [jlistFuel, jRenderItems]
    omega
  | ind, e, .cons e2 es => by
    have h1 := jvalFuel_le (ind + 1) e
    have h2 := jlistFuel_le ind e2 es
    simp only [jlistFuel] at h2
    simp only [jlistFuel, jRenderItems, List.length_append, List.length_cons]
    omega
termination_by _ e es => sizeOf e + sizeOf es
theorem jfieldsFuel_le : ∀ (ind : Nat) (k : String) (v : Jval) (fs : Jfields),
    jfieldsFuel (.fcons k v fs) ≤ (jRenderFields ind k v fs).length + 2
  | ind, k, v, .fnil => by
    have := jvalFuel_le (ind + 1) v
    simp only [jfieldsFuel, jRenderFields, List.length_append, List.length_cons]
    omega
  | ind, k, v, .fcons k2 v2 fs => by
    have h1 := jvalFuel_le (ind + 1) v
    have h2 := jfieldsFuel_le ind k2 v2 fs
    simp only [jfieldsFuel] at h2
    simp only [jfieldsFuel, jRenderFields, List.length_append, List.length_cons]
    omega
termination_by _ _ v fs => sizeOf v + sizeOf fs
end

/-! ## Codec lemmas: the parser is insensitive to leading whitespace -/

theorem jParse_skipWs : ∀ (fuel : Nat) (cs : List Char),
    jParse fuel (skipWs cs) = jParse fuel cs
  | 0, _ => rfl
  | fuel + 1, cs => by simp only [jParse, skipWs_idem]

theorem jParseItems_skipWs : ∀ (fuel : Nat) (cs : List Char),
    jParseItems fuel (skipWs cs) = jParseItems fuel cs
  | 0, _ => rfl
  | fuel + 1, cs => by simp only [jParseItems, jParse_skipWs]

theorem jParseFields_skipWs : ∀ (fuel : Nat) (cs : List Char),
    jParseFields fuel (skipWs cs) = jParseFields fuel cs
  | 0, _ => rfl
  | fuel + 1, cs => by simp only [jParseFields, skipWs_idem]

/-! ## Codec lemmas: parser dispatch by head character -/

theorem jParse_null (f : Nat) (rest : List Char) :
    jParse (f + 1) ('n' :: 'u' :: 'l' :: 'l' :: rest) = some (.jnull, rest) := by
  simp only [jParse]
  rw [skipWs_not (by decide)]
  rfl

theorem jParse_true (f : Nat) (rest : List Char) :
    jParse (f + 1) ('t' :: 'r' :: 'u' :: 'e' :: rest) = some (.jbool true, rest) := by
  simp only [jParse]
  rw [skipWs_not (by decide)]
  rfl

theorem jParse_false (f : Nat) (rest : List Char) :
    jParse (f + 1) ('f' :: 'a' :: 'l' :: 's' :: 'e' :: rest)
      = some (.jbool false, rest) := by
  simp only [jParse]
  rw [skipWs_not (by decide)]
  rfl

theorem jParse_quote (f : Nat) (r : List Char) :
    jParse (f + 1) ('"' :: r)
      = (parseStrBody [] r).map (fun p => (.jstr p.1, p.2)) := by
  simp only [jParse]
  rw [skipWs_not (by decide)]
  rfl

theorem jParse_arr (f : Nat) (r : List Char) :
    jParse (f + 1) ('[' :: r)
      = (match skipWs r with
         | ']' :: r' => some (.jarr .nil, r')
         | r' => (jParseItems f r').map (fun p => (.jarr p.1, p.2))) := by
  simp only [jParse]
  rw [skipWs_not (by decide)]
  rfl

theorem jParse_obj (f : Nat) (r : List Char) :
    jParse (f + 1) ('{' :: r)
      = (match skipWs r with
         | '}' :: r' => some (.jobj .fnil, r')
         | r' => (jParseFields f r').map (fun p => (.jobj p.1, p.2))) := by
  simp only [jParse]
  rw [skipWs_not (by decide)]
  rfl

theorem jParse_other (f : Nat) (c : Char) (r : List Char)
    (hws : isWsCh c = false) (hn : c ≠ 'n') (ht : c ≠ 't') (hf : c ≠ 'f')
    (hq : c ≠ '"') (hlb : c ≠ '[') (hob : c ≠ '{')
    (hg : (c = '-' || isDigitCh c) = true) :
    jParse (f + 1) (c :: r)
      = (parseIntL (c :: r)).map (fun p => (.jint p.1, p.2)) := by
  simp only [jParse]
  rw [skipWs_not hws]
  simp [hn, ht, hf, hq, hlb, hob, hg]

theorem headNot_of {c : Char} (h : isDigitCh c = false) (t : List Char) :
    headNotP isDigitCh (c :: t) = true := by simp [headNotP, h]

/-- Rendered member lists always start with the key's opening quote. -/
theorem jRenderFields_head (ind : Nat) (k : String) (v : Jval) (fs : Jfields) :
    ∃ t, jRenderFields ind k v fs = '"' :: t := by
  cases fs with
  | fnil =>
    refine ⟨(k.toList.map escChar).flatten ++
      ('"' :: ':' :: ' ' :: jRender (ind + 1) v), ?_⟩
    simp [jRenderFields, qstr]
  | fcons k2 v2 fs' =>
    refine ⟨(k.toList.map escChar).flatten ++
      ('"' :: ':' :: ' ' :: (jRender (ind + 1) v ++
        (',' :: '\n' :: (spaces (ind + 1) ++ jRenderFields ind k2 v2 fs')))), ?_⟩
    simp [jRenderFields, qstr]

mutual
theorem rt_val : ∀ (v : Jval) (fuel ind : Nat) (rest : List Char),
    jvalFuel v ≤ fuel → headNotP isDigitCh rest = true →
    jParse fuel (jRender ind v ++ rest) = some (v, rest)
  | .jnull, fuel, ind, rest, hfv, _ => by
    cases fuel with
    | zero => simp [jvalFuel] at hfv
    | succ f =>
      have harg : jRender ind Jval.jnull ++ rest
          = 'n' :: 'u' :: 'l' :: 'l' :: rest := by simp [jRender]
      rw [harg, jParse_null]
  | .jbool true, fuel, ind, rest, hfv, _ => by
    cases fuel with
    | zero => simp [jvalFuel] at hfv
    | succ f =>
      have harg : jRender ind (Jval.jbool true) ++ rest
          = 't' :: 'r' :: 'u' :: 'e' :: rest := by simp [jRender]
      rw [harg, jParse_true]
  | .jbool false, fuel, ind, rest, hfv, _ => by
    cases fuel with
    | zero => simp [jvalFuel] at hfv
    | succ f =>
      have harg : jRender ind (Jval.jbool false) ++ rest
          = 'f' :: 'a' :: 'l' :: 's' :: 'e' :: rest := by simp [jRender]
      rw [harg, jParse_false]
  | .jint i, fuel, ind, rest, hfv, hrest => by
    cases fuel with
    | zero => simp [jvalFuel] at hfv
    | succ f =>
      by_cases hneg : i < 0
      · have hic : intChars i = '-' :: natChars i.natAbs := by
          simp [intChars, hneg]
        have harg : jRender ind (Jval.jint i) ++ rest
            = '-' :: (natChars i.natAbs ++ rest) := by
          simp [jRender, hic]
        rw [harg, jParse_other f '-' _ (by decide) (by decide) (by decide)
            (by decide) (by decide) (by decide) (by decide) (by simp)]
        have hback : '-' :: (natChars i.natAbs ++ rest) = intChars i ++ rest := by
          rw [hic, List.cons_append]
        rw [hback, parseIntL_intChars i rest hrest]
        rfl
      · obtain ⟨c, t, hct, hcd⟩ := natChars_cons i.natAbs
        obtain ⟨hws, _, _, _, _, hq, _, _, _, hn, ht2, hf2, hlb, hob⟩ :=
          digitCh_class hcd
        have hic : intChars i = c :: t := by simp [intChars, hneg, hct]
        have harg : jRender ind (Jval.jint i) ++ rest = c :: (t ++ rest) := by
          simp [jRender, hic]
        rw [harg, jParse_other f c _ hws hn ht2 hf2 hq hlb hob (by simp [hcd])]
        have hback : c :: (t ++ rest) = intChars i ++ rest := by
          rw [hic, List.cons_append]
        rw [hback, parseIntL_intChars i rest hrest]
        rfl
  | .jstr s, fuel, ind, rest, hfv, _ => by
    cases fuel with
    | zero => simp [jvalFuel] at hfv
    | succ f =>
      have harg : jRender ind (Jval.jstr s) ++ rest
          = '"' :: ((s.toList.map escChar).flatten ++ '"' :: rest) := by
        simp [jRender, qstr]
      rw [harg, jParse_quote, parseStrBody_qstr]
      rfl
  | .jarr .nil, fuel, ind, rest, hfv, _ => by
    cases fuel with
    | zero => simp [jvalFuel] at hfv
    | succ f =>
      have harg : jRender ind (Jval.jarr Jlist.nil) ++ rest
          = '[' :: (']' :: rest) := by simp [jRender]
      rw [harg, jParse_arr, skipWs_not (by decide)]
      rfl
  | .jarr (.cons e es), fuel, ind, rest, hfv, _ => by
    cases fuel with
    | zero => simp only [jvalFuel] at hfv; omega
    | succ f =>
      have hfl : jlistFuel (.cons e es) ≤ f := by
        simp only [jvalFuel] at hfv; omega
      obtain ⟨c, t, hct, hcws, hcbr, _, _⟩ := jRenderItems_head ind e es
      have harg : jRender ind (Jval.jarr (.cons e es)) ++ rest
          = '[' :: ('\n' :: (spaces (ind + 1) ++
              (jRenderItems ind e es ++
                ('\n' :: (spaces ind ++ (']' :: rest)))))) := by
        simp [jRender]
      rw [harg, jParse_arr]
      have hskip : skipWs ('\n' :: (spaces (ind + 1) ++
          (jRenderItems ind e es ++ ('\n' :: (spaces ind ++ (']' :: rest))))))
            = c :: (t ++ ('\n' :: (spaces ind ++ (']' :: rest)))) := by
        rw [skipWs_nl, skipWs_spaces, hct, List.cons_append, skipWs_not hcws]
      rw [hskip]
      have hrec := rt_items e es f ind rest hfl
      rw [hct, List.cons_append] at hrec
      simp [hcbr, hrec]
  | .jobj .fnil, fuel, ind, rest, hfv, _ => by
    cases fuel with
    | zero => simp [jvalFuel] at hfv
    | succ f =>
      have harg : jRender ind (Jval.jobj Jfields.fnil) ++ rest
          = '{' :: ('}' :: rest) := by simp [jRender]
      rw [harg, jParse_obj, skipWs_not (by decide)]
      rfl
  | .jobj (.fcons k v fs), fuel, ind, rest, hfv, _ => by
    cases fuel with
    | zero => simp only [jvalFuel] at hfv; omega
    | succ f =>
      have hff : jfieldsFuel (.fcons k v fs) ≤ f := by
        simp only [jvalFuel] at hfv; omega
      obtain ⟨t, hct⟩ := jRenderFields_head ind k v fs
      have harg : jRender ind (Jval.jobj (.fcons k v fs)) ++ rest
          = '{' :: ('\n' :: (spaces (ind + 1) ++
              (jRenderFields ind k v fs ++
                ('\n' :: (spaces ind ++ ('}' :: rest)))))) := by
        simp [jRender]
      rw [harg, jParse_obj]
      have hskip : skipWs ('\n' :: (spaces (ind + 1) ++
          (jRenderFields ind k v fs ++ ('\n' :: (spaces ind ++ ('}' :: rest))))))
            = '"' :: (t ++ ('\n' :: (spaces ind ++ ('}' :: rest)))) := by
        rw [skipWs_nl, skipWs_spaces, hct, List.cons_append,
            skipWs_not (by decide)]
      rw [hskip]
      have hrec := rt_fields k v fs f ind rest hff
      rw [hct, List.cons_append] at hrec
      simp [hrec]
termination_by v _ _ _ _ _ => sizeOf v
theorem rt_items : ∀ (e : Jval) (es : Jlist) (fuel ind : Nat) (rest : List Char),
    jlistFuel (.cons e es) ≤ fuel →
    jParseItems fuel
        (jRenderItems ind e es ++ ('\n' :: (spaces ind ++ (']' :: rest))))
      = some (.cons e es, rest)
  | e, .nil, fuel, ind, rest, hfl => by
    cases fuel with
    | zero => simp only [jlistFuel] at hfl; omega
    | succ f =>
      have hfe : jvalFuel e ≤ f := by simp only [jlistFuel] at hfl; omega
      have harg : jRenderItems ind e Jlist.nil ++
            ('\n' :: (spaces ind ++ (']' :: rest)))
          = jRender (ind + 1) e ++ ('\n' :: (spaces ind ++ (']' :: rest))) := by
        simp [jRenderItems]
      have hv := rt_val e f (ind + 1) ('\n' :: (spaces ind ++ (']' :: rest)))
        hfe (headNot_of (by decide) _)
      have hs : skipWs ('\n' :: (spaces ind ++ (']' :: rest))) = ']' :: rest := by
        rw [skipWs_nl, skipWs_spaces, skipWs_not (by decide)]
      simp only [jParseItems]
      rw [harg]
      simp [hv, hs]
  | e, .cons e2 es, fuel, ind, rest, hfl => by
    cases fuel with
    | zero => simp only [jlistFuel] at hfl; omega
    | succ f =>
      have hfe : jvalFuel e ≤ f := by simp only [jlistFuel] at hfl; omega
      have hfl2 : jlistFuel (.cons e2 es) ≤ f := by
        simp only [jlistFuel] at hfl ⊢; omega
      have harg : jRenderItems ind e (.cons e2 es) ++
            ('\n' :: (spaces ind ++ (']' :: rest)))
          = jRender (ind + 1) e ++
              (',' :: '\n' :: (spaces (ind + 1) ++
                (jRenderItems ind e2 es ++
                  ('\n' :: (spaces ind ++ (']' :: rest)))))) := by
        simp [jRenderItems]
      have hv := rt_val e f (ind + 1)
        (',' :: '\n' :: (spaces (ind + 1) ++
          (jRenderItems ind e2 es ++ ('\n' :: (spaces ind ++ (']' :: rest))))))
        hfe (headNot_of (by decide) _)
      have hsc : skipWs (',' :: '\n' :: (spaces (ind + 1) ++
            (jRenderItems ind e2 es ++ ('\n' :: (spaces ind ++ (']' :: rest))))))
          = ',' :: '\n' :: (spaces (ind + 1) ++
              (jRenderItems ind e2 es ++ ('\n' :: (spaces ind ++ (']' :: rest))))) :=
        skipWs_not (by decide) _
      obtain ⟨c2, t2, hct2, hws2, _, _, _⟩ := jRenderItems_head ind e2 es
      have hbridge : jParseItems f ('\n' :: (spaces (ind + 1) ++
            (jRenderItems ind e2 es ++ ('\n' :: (spaces ind ++ (']' :: rest))))))
          = jParseItems f (jRenderItems ind e2 es ++
              ('\n' :: (spaces ind ++ (']' :: rest)))) := by
        have hs : skipWs ('\n' :: (spaces (ind + 1) ++
              (jRenderItems ind e2 es ++ ('\n' :: (spaces ind ++ (']' :: rest))))))
            = jRenderItems ind e2 es ++ ('\n' :: (spaces ind ++ (']' :: rest))) := by
          rw [skipWs_nl, skipWs_spaces, hct2, List.cons_append, skipWs_not hws2,
              ← List.cons_append, ← hct2]
        rw [← jParseItems_skipWs f, hs]
      simp only [jParseItems]
      rw [harg]
      simp [hv, hsc, hbridge, rt_items e2 es f ind rest hfl2]
termination_by e es _ _ _ _ => sizeOf e + sizeOf es
theorem rt_fields : ∀ (k : String) (v : Jval) (fs : Jfields)
    (fuel ind : Nat) (rest : List Char),
    jfieldsFuel (.fcons k v fs) ≤ fuel →
    jParseFields fuel
        (jRenderFields ind k v fs ++ ('\n' :: (spaces ind ++ ('}' :: rest))))
      = some (.fcons k v fs, rest)
  | k, v, .fnil, fuel, ind, rest, hff => by
    cases fuel with
    | zero => simp only [jfieldsFuel] at hff; omega
    | succ f =>
      have hfv : jvalFuel v ≤ f := by simp only [jfieldsFuel] at hff; omega
      have harg : jRenderFields ind k v Jfields.fnil ++
            ('\n' :: (spaces ind ++ ('}' :: rest)))
          = '"' :: ((k.toList.map escChar).flatten ++
              '"' :: (':' :: ' ' :: (jRender (ind + 1) v ++
                ('\n' :: (spaces ind ++ ('}' :: rest)))))) := by
        simp [jRenderFields, qstr]
      have hs0 : ∀ Y : List Char, skipWs ('"' :: Y) = '"' :: Y :=
        fun Y => skipWs_not (by decide) Y
      have hs1 : ∀ Y : List Char, skipWs (':' :: Y) = ':' :: Y :=
        fun Y => skipWs_not (by decide) Y
      have hbridge : jParse f (' ' :: (jRender (ind + 1) v ++
            ('\n' :: (spaces ind ++ ('}' :: rest)))))
          = jParse f (jRender (ind + 1) v ++
              ('\n' :: (spaces ind ++ ('}' :: rest)))) := by
        obtain ⟨c, t, hct, hws, _⟩ := jRender_head (ind + 1) v
        have hs : skipWs (' ' :: (jRender (ind + 1) v ++
              ('\n' :: (spaces ind ++ ('}' :: rest)))))
            = jRender (ind + 1) v ++ ('\n' :: (spaces ind ++ ('}' :: rest))) := by
          rw [skipWs_ws (by decide), hct, List.cons_append, skipWs_not hws,
              ← List.cons_append, ← hct]
        rw [← jParse_skipWs f, hs]
      have hv := rt_val v f (ind + 1) ('\n' :: (spaces ind ++ ('}' :: rest)))
        hfv (headNot_of (by decide) _)
      have hs2 : skipWs ('\n' :: (spaces ind ++ ('}' :: rest))) = '}' :: rest := by
        rw [skipWs_nl, skipWs_spaces, skipWs_not (by decide)]
      have hps : parseStrBody []
            ((List.map escChar k.data).flatten ++
              '"' :: (':' :: ' ' :: (jRender (ind + 1) v ++
                ('\n' :: (spaces ind ++ ('}' :: rest))))))
          = some (k, ':' :: ' ' :: (jRender (ind + 1) v ++
              ('\n' :: (spaces ind ++ ('}' :: rest))))) :=
        parseStrBody_qstr k _
      simp only [jParseFields]
      rw [harg]
      simp [hs0, hs1, hps, hbridge, hv, hs2]
  | k, v, .fcons k2 v2 fs, fuel, ind, rest, hff => by
    cases fuel with
    | zero => simp only [jfieldsFuel] at hff; omega
    | succ f =>
      have hfv : jvalFuel v ≤ f := by simp only [jfieldsFuel] at hff; omega
      have hff2 : jfieldsFuel (.fcons k2 v2 fs) ≤ f := by
        simp only [jfieldsFuel] at hff ⊢; omega
      have harg : jRenderFields ind k v (.fcons k2 v2 fs) ++
            ('\n' :: (spaces ind ++ ('}' :: rest)))
          = '"' :: ((k.toList.map escChar).flatten ++
              '"' :: (':' :: ' ' :: (jRender (ind + 1) v ++
                (',' :: '\n' :: (spaces (ind + 1) ++
                  (jRenderFields ind k2 v2 fs ++
                    ('\n' :: (spaces ind ++ ('}' :: rest))))))))) := by
        simp [jRenderFields, qstr]
      have hs0 : ∀ Y : List Char, skipWs ('"' :: Y) = '"' :: Y :=
        fun Y => skipWs_not (by decide) Y
      have hs1 : ∀ Y : List Char, skipWs (':' :: Y) = ':' :: Y :=
        fun Y => skipWs_not (by decide) Y
      have hsc : ∀ Y : List Char, skipWs (',' :: Y) = ',' :: Y :=
        fun Y => skipWs_not (by decide) Y
      have hbridge1 : jParse f (' ' :: (jRender (ind + 1) v ++
            (',' :: '\n' :: (spaces (ind + 1) ++
              (jRenderFields ind k2 v2 fs ++
                ('\n' :: (spaces ind ++ ('}' :: rest))))))))
          = jParse f (jRender (ind + 1) v ++
              (',' :: '\n' :: (spaces (ind + 1) ++
                (jRenderFields ind k2 v2 fs ++
                  ('\n' :: (spaces ind ++ ('}' :: rest))))))) := by
        obtain ⟨c, t, hct, hws, _⟩ := jRender_head (ind + 1) v
        have hs : skipWs (' ' :: (jRender (ind + 1) v ++
              (',' :: '\n' :: (spaces (ind + 1) ++
                (jRenderFields ind k2 v2 fs ++
                  ('\n' :: (spaces ind ++ ('}' :: rest))))))))
            = jRender (ind + 1) v ++
                (',' :: '\n' :: (spaces (ind + 1) ++
                  (jRenderFields ind k2 v2 fs ++
                    ('\n' :: (spaces ind ++ ('}' :: rest)))))) := by
          rw [skipWs_ws (by decide), hct, List.cons_append, skipWs_not hws,
              ← List.cons_append, ← hct]
        rw [← jParse_skipWs f, hs]
      have hv := rt_val v f (ind + 1)
        (',' :: '\n' :: (spaces (ind + 1) ++
          (jRenderFields ind k2 v2 fs ++ ('\n' :: (spaces ind ++ ('}' :: rest))))))
        hfv (headNot_of (by decide) _)
      obtain ⟨t2, hct2⟩ := jRenderFields_head ind k2 v2 fs
      have hbridge2 : jParseFields f ('\n' :: (spaces (ind + 1) ++
            (jRenderFields ind k2 v2 fs ++ ('\n' :: (spaces ind ++ ('}' :: rest))))))
          = jParseFields f (jRenderFields ind k2 v2 fs ++
              ('\n' :: (spaces ind ++ ('}' :: rest)))) := by
        have hs : skipWs ('\n' :: (spaces (ind + 1) ++
              (jRenderFields ind k2 v2 fs ++ ('\n' :: (spaces ind ++ ('}' :: rest))))))
            = jRenderFields ind k2 v2 fs ++ ('\n' :: (spaces ind ++ ('}' :: rest))) := by
          rw [skipWs_nl, skipWs_spaces, hct2, List.cons_append,
              skipWs_not (by decide), ← List.cons_append, ← hct2]
        rw [← jParseFields_skipWs f, hs]
      have hps : parseStrBody []
            ((List.map escChar k.data).flatten ++
              '"' :: (':' :: ' ' :: (jRender (ind + 1) v ++
                (',' :: '\n' :: (spaces (ind + 1) ++
                  (jRenderFields ind k2 v2 fs ++
                    ('\n' :: (spaces ind ++ ('}' :: rest)))))))))
          = some (k, ':' :: ' ' :: (jRender (ind + 1) v ++
              (',' :: '\n' :: (spaces (ind + 1) ++
                (jRenderFields ind k2 v2 fs ++
                  ('\n' :: (spaces ind ++ ('}' :: rest)))))))) :=
        parseStrBody_qstr k _
      simp only [jParseFields]
      rw [harg]
      simp [hs0, hs1, hsc, hps, hbridge1, hv, hbridge2,
        rt_fields k2 v2 fs f ind rest hff2]
termination_by k v fs _ _ _ _ => sizeOf v + sizeOf fs
end

mutual
theorem jvalEq_refl : ∀ v : Jval, jvalEq v v = true
  | .jnull => rfl
  | .jbool b => by cases b <;> rfl
  | .jint i => by simp [jvalEq]
  | .jstr s => by simp [jvalEq]
  | .jarr l => by simp [jvalEq, jlistEq_refl l]
  | .jobj fs => by simp [jvalEq, jfieldsEq_refl fs]
termination_by v => sizeOf v
theorem jlistEq_refl : ∀ l : Jlist, jlistEq l l = true
  | .nil => rfl
  | .cons e es => by simp [jlistEq, jvalEq_refl e, jlistEq_refl es]
termination_by l => sizeOf l
theorem jfieldsEq_refl : ∀ fs : Jfields, jfieldsEq fs fs = true
  | .fnil => rfl
  | .fcons k v t => by simp [jfieldsEq, jvalEq_refl v, jfieldsEq_refl t]
termination_by fs => sizeOf fs
end

/-- `json.Unmarshal ∘ json.MarshalIndent` is the identity on values. -/
theorem json_roundtrip (v : Jval) :
    jsonUnmarshal (jsonMarshalIndent v) = some v := by
  have hfv : jvalFuel v ≤ (jRender 0 v).length + 1 :=
    Nat.le_succ_of_le (jvalFuel_le 0 v)
  have h := rt_val v ((jRender 0 v).length + 1) 0 [] hfv (by simp [headNotP])
  rw [List.append_nil] at h
  have hdata : (jsonMarshalIndent v).data = jRender 0 v := rfl
  have hl : (jsonMarshalIndent v).length = (jRender 0 v).length := rfl
  simp [jsonUnmarshal, String.toList, hdata, hl, h, skipWs]

theorem headNotP_cons (p : Char → Bool) (c : Char) (t : List Char)
    (h : p c = false) : headNotP p (c :: t) = true := by simp [headNotP, h]

/-- Identifier characters are never prototext whitespace. -/
theorem pIdent_not_ws {c : Char} (h : pIdentChar c = true) : isWsCh c = false := by
  cases hw : isWsCh c
  · rfl
  · exfalso
    have hc : ((c = ' ' ∨ c = '\n') ∨ c = '\t') ∨ c = '\r' := by
      simpa [isWsCh] using hw
    rcases hc with ((rfl | rfl) | rfl) | rfl <;> exact absurd h (by decide)

/-- Each field of a flat message occupies at least one rendered byte. -/
theorem protoRender_length :
    ∀ m : List ProtoField, m.length ≤ (protoRender m).length := by
  intro m
  induction m with
  | nil => simp [protoRender]
  | cons fd rest ih =>
    simp only [protoRender, List.length_append, List.length_cons]
    omega

theorem protoParseF_skipWs : ∀ (fuel : Nat) (cs : List Char),
    protoParseF fuel (skipWs cs) = protoParseF fuel cs
  | 0, _ => rfl
  | fuel + 1, cs => by simp only [protoParseF, skipWs_idem]

/-- The leading character of a rendered integer is neither whitespace nor a
quote. -/
theorem intChars_head (i : Int) :
    ∃ c t, intChars i = c :: t ∧ isWsCh c = false ∧ ¬ c = '"' := by
  by_cases hneg : i < 0
  · exact ⟨'-', natChars i.natAbs, by simp [intChars, hneg], by decide, by decide⟩
  · obtain ⟨c, t, hct, hcd⟩ := natChars_cons i.natAbs
    obtain ⟨hws, _, _, _, _, hq, _⟩ := digitCh_class hcd
    exact ⟨c, t, by simp [intChars, hneg, hct], hws, by simpa using hq⟩

/-- The fuelled prototext parser inverts the renderer on well-formed flat
messages. -/
theorem rt_proto : ∀ (m : List ProtoField) (fuel : Nat),
    (∀ fd ∈ m, pWfName fd.name = true) → m.length < fuel →
    protoParseF fuel (protoRender m) = some m
  | [], fuel, _, hlen => by
    cases fuel with
    | zero => omega
    | succ f => simp [protoParseF, protoRender, skipWs]
  | fd :: rest, fuel, hwf, hlen => by
    cases fuel with
    | zero => simp at hlen
    | succ f =>
      obtain ⟨nm, val⟩ := fd
      have hwf0 : pWfName nm = true := hwf ⟨nm, val⟩ (by simp)
      have hwfr : ∀ g ∈ rest, pWfName g.name = true := fun g hg =>
        hwf g (by simp [hg])
      have hlen' : rest.length < f := by
        simp only [List.length_cons] at hlen; omega
      simp only [pWfName, Bool.and_eq_true, Bool.not_eq_true',
        List.all_eq_true] at hwf0
      obtain ⟨hnemp, hall⟩ := hwf0
      cases hname : nm.toList with
      | nil => rw [hname] at hnemp; simp at hnemp
      | cons c0 t0 =>
        rw [hname] at hall
        have hc0 : pIdentChar c0 = true := hall c0 (by simp)
        have hdata : nm.data = c0 :: t0 := hname
        have hx : protoRender (⟨nm, val⟩ :: rest)
            = c0 :: (t0 ++ (':' :: ' ' :: (pvalRender val ++
                '\n' :: protoRender rest))) := by
          simp [protoRender, String.toList, hdata]
        have hspan : spanP pIdentChar (c0 :: (t0 ++ (':' :: ' ' ::
              (pvalRender val ++ '\n' :: protoRender rest))))
            = (c0 :: t0, ':' :: ' ' :: (pvalRender val ++
                '\n' :: protoRender rest)) := by
          rw [← List.cons_append]
          exact spanP_append _ _ _ hall (headNotP_cons _ _ _ (by decide))
        have hsr : ∀ Y : List Char, skipWs (':' :: Y) = ':' :: Y :=
          fun Y => skipWs_not (by decide) Y
        have hb : protoParseF f ('\n' :: protoRender rest)
            = protoParseF f (protoRender rest) := by
          rw [← protoParseF_skipWs f ('\n' :: protoRender rest), skipWs_nl,
              protoParseF_skipWs]
        have hrec := rt_proto rest f hwfr hlen'
        simp only [protoParseF]
        rw [hx, skipWs_not (pIdent_not_ws hc0)]
        cases val with
        | pstr s =>
          have hsw : skipWs (' ' :: (pvalRender (PVal.pstr s) ++
                '\n' :: protoRender rest))
              = '"' :: ((List.map escChar s.data).flatten ++
                  '"' :: ('\n' :: protoRender rest)) := by
            rw [skipWs_ws (by decide)]
            have : pvalRender (PVal.pstr s) ++ '\n' :: protoRender rest
                = '"' :: ((List.map escChar s.data).flatten ++
                    '"' :: ('\n' :: protoRender rest)) := by
              simp [pvalRender, qstr]
            rw [this, skipWs_not (by decide)]
          have hps : parseStrBody []
                ((List.map escChar s.data).flatten ++
                  '"' :: ('\n' :: protoRender rest))
              = some (s, '\n' :: protoRender rest) :=
            parseStrBody_qstr s _
          simp [hspan, hsr, hsw, hps, hb, hrec]
          rw [← hname]
          rfl
        | pint i =>
          obtain ⟨c1, t1, hic, hws1, hnq⟩ := intChars_head i
          have hsw : skipWs (' ' :: (pvalRender (PVal.pint i) ++
                '\n' :: protoRender rest))
              = c1 :: (t1 ++ ('\n' :: protoRender rest)) := by
            rw [skipWs_ws (by decide)]
            have : pvalRender (PVal.pint i) ++ '\n' :: protoRender rest
                = c1 :: (t1 ++ ('\n' :: protoRender rest)) := by
              simp [pvalRender, hic]
            rw [this, skipWs_not hws1]
          have hpi : parseIntL (c1 :: (t1 ++ ('\n' :: protoRender rest)))
              = some (i, '\n' :: protoRender rest) := by
            rw [← List.cons_append, ← hic]
            exact parseIntL_intChars i _ (headNot_of (by decide) _)
          simp [hspan, hsr, hsw, hnq, hpi, hb, hrec]
          rw [← hname]
          rfl

/-- `prototext.Unmarshal ∘ prototext.Marshal` is the identity on well-formed
flat messages. -/
theorem proto_roundtrip (m : List ProtoField)
    (h : ∀ fd ∈ m, pWfName fd.name = true) :
    protoUnmarshal (prototextMarshal m) = some m := by
  have hlen : m.length < (protoRender m).length + 1 :=
    Nat.lt_succ_of_le (protoRender_length m)
  have hdata : (prototextMarshal m).data = protoRender m := rfl
  have hl : (prototextMarshal m).length = (protoRender m).length := rfl
  simp [protoUnmarshal, String.toList, hdata, hl, rt_proto m _ h hlen]

/-- C6: round-trip law — for any result value `v` (with syntactically valid
protobuf field names in the protobuf case), loading the bytes produced by
formatting `v` with the default Formatter/Loader strategy selected by `v`'s
type (string passthrough, byte-slice passthrough, prototext for protobuf
messages, indented JSON otherwise) succeeds and yields a value Compare-equal
to `v`. -/
theorem c6_roundtrip (v : GoVal) (h : goWf v = true) :
    ∃ w, defaultLoader (goTypeOf v) (defaultFormatter v) = .ok w ∧
      goCmpEqual w v = true := by
  cases v with
  | gstr s => exact ⟨.gstr s, rfl, by simp [goCmpEqual]⟩
  | gbytes b => exact ⟨.gbytes b, rfl, by simp [goCmpEqual]⟩
  | gproto m =>
    have hwf : ∀ fd ∈ m, pWfName fd.name = true := by
      simp only [goWf, List.all_eq_true] at h
      exact h
    refine ⟨.gproto m, ?_, by simp [goCmpEqual]⟩
    simp [goTypeOf, defaultFormatter, defaultLoader, proto_roundtrip m hwf]
  | gjson j =>
    refine ⟨.gjson j, ?_, by simp [goCmpEqual, jvalEq_refl]⟩
    simp [goTypeOf, defaultFormatter, defaultLoader, json_roundtrip j]

/-- C6 witness: the round trip at a concrete protobuf message. -/
theorem c6_witness :
    goWf (GoVal.gproto [⟨"x", .pint 5⟩]) = true ∧
    ∃ w, defaultLoader (goTypeOf (GoVal.gproto [⟨"x", .pint 5⟩]))
          (defaultFormatter (GoVal.gproto [⟨"x", .pint 5⟩])) = .ok w ∧
        goCmpEqual w (GoVal.gproto [⟨"x", .pint 5⟩]) = true :=
  ⟨by decide, c6_roundtrip (GoVal.gproto [⟨"x", .pint 5⟩]) (by decide)⟩

end GoldenTest
